import Mathlib

/-!
Verification of the banded MinHash LSH index and its storage layer
(`datasketch/storage.py`, `datasketch/lsh.py`, `datasketch/inverted_index.py`).

The Python dictionaries (`collections.defaultdict`) are embedded as
association lists `List (α × β)` with unique keys; `defaultdict` access that
creates a missing entry is modelled explicitly.  Python `set` values are
embedded as duplicate-free lists built by membership-guarded append, so all
set operations are observed through list membership.  Python exceptions are
embedded as an `Err` code returned next to the (possibly partially mutated)
state, mirroring exactly which mutations precede each `raise` in the source.

`MinHashLSH._H` serializes a band slice of the signature to canonical
(byteswapped) bytes; this map is injective on fixed-width slices, so a
`BandKey` is embedded as the slice of signature values itself.
-/

/-- Python exception kinds raised by the embedded code paths. -/
inductive Err where
  | valueError
  | keyError
  | typeError
  | nameError
  deriving DecidableEq

/-! ## Association-list model of Python dictionaries -/

/-- First-match lookup in an association list (Python `dict` lookup). -/
def alookup {α β : Type} [DecidableEq α] (d : List (α × β)) (k : α) : Option β :=
  match d with
  | [] => none
  | p :: rest => if p.1 = k then some p.2 else alookup rest k

/-- `defaultdict` access-and-mutate: apply `f` to the value stored at `k`,
creating the entry with the default `init` first when `k` is absent (a fresh
key is appended at the end, matching `dict` insertion order). -/
def aupdate {α β : Type} [DecidableEq α] (d : List (α × β)) (k : α) (f : β → β)
    (init : β) : List (α × β) :=
  match d with
  | [] => [(k, f init)]
  | p :: rest => if p.1 = k then (p.1, f p.2) :: rest else p :: aupdate rest k f init

/-- `del d[k]` on a dict with unique keys: drop the entry for `k`. -/
def aerase {α β : Type} [DecidableEq α] (d : List (α × β)) (k : α) : List (α × β) :=
  match d with
  | [] => []
  | p :: rest => if p.1 = k then aerase rest k else p :: aerase rest k

/-- `list.remove` / `set.remove`: drop the first occurrence of `a`. -/
def eraseFirst {α : Type} [DecidableEq α] (l : List α) (a : α) : List α :=
  match l with
  | [] => []
  | x :: xs => if x = a then xs else x :: eraseFirst xs a

theorem alookup_eq_none {α β : Type} [DecidableEq α] (d : List (α × β)) (k : α) :
    alookup d k = none ↔ k ∉ d.map Prod.fst := by
  induction d with
  | nil => simp [alookup]
  | cons p rest ih =>
    by_cases h : p.1 = k
    · simp [alookup, h]
    · simp [alookup, h, ih, Ne.symm h]

theorem alookup_isSome {α β : Type} [DecidableEq α] (d : List (α × β)) (k : α) :
    (alookup d k).isSome = true ↔ k ∈ d.map Prod.fst := by
  rcases h : alookup d k with _ | v
  · simpa using (alookup_eq_none d k).mp h
  · simp only [Option.isSome_some, true_iff]
    by_contra hk
    rw [(alookup_eq_none d k).mpr hk] at h
    exact Option.noConfusion h

theorem alookup_mem {α β : Type} [DecidableEq α] {d : List (α × β)} {k : α} {v : β}
    (h : alookup d k = some v) : (k, v) ∈ d := by
  induction d with
  | nil => simp [alookup] at h
  | cons p rest ih =>
    by_cases hp : p.1 = k
    · simp only [alookup, if_pos hp] at h
      have hpv : p = (k, v) := by
        obtain ⟨a, b⟩ := p
        obtain rfl : a = k := hp
        obtain rfl : b = v := Option.some.inj h
        rfl
      rw [← hpv]
      exact List.mem_cons_self _ _
    · simp only [alookup, if_neg hp] at h
      exact List.mem_cons_of_mem _ (ih h)

theorem alookup_append_left {α β : Type} [DecidableEq α] {d₁ : List (α × β)}
    (d₂ : List (α × β)) {k : α} {v : β} (h : alookup d₁ k = some v) :
    alookup (d₁ ++ d₂) k = some v := by
  induction d₁ with
  | nil => exact absurd h (by simp [alookup])
  | cons p rest ih =>
    by_cases hp : p.1 = k <;> simp_all [alookup]

theorem alookup_append_right {α β : Type} [DecidableEq α] {d₁ : List (α × β)}
    (d₂ : List (α × β)) {k : α} (h : alookup d₁ k = none) :
    alookup (d₁ ++ d₂) k = alookup d₂ k := by
  induction d₁ with
  | nil => rfl
  | cons p rest ih =>
    by_cases hp : p.1 = k <;> simp_all [alookup]

theorem aupdate_lookup_self {α β : Type} [DecidableEq α] (d : List (α × β)) (k : α)
    (f : β → β) (init : β) :
    alookup (aupdate d k f init) k = some (f ((alookup d k).getD init)) := by
  induction d with
  | nil => simp [alookup, aupdate]
  | cons p rest ih =>
    by_cases hp : p.1 = k <;> simp [alookup, aupdate, hp, ih]

theorem aupdate_lookup_ne {α β : Type} [DecidableEq α] (d : List (α × β)) {k k' : α}
    (f : β → β) (init : β) (h : k' ≠ k) :
    alookup (aupdate d k f init) k' = alookup d k' := by
  induction d with
  | nil => simp [alookup, aupdate, Ne.symm h]
  | cons p rest ih =>
    by_cases hp : p.1 = k
    · simp [alookup, aupdate, hp, Ne.symm h]
    · by_cases hp' : p.1 = k'
      · simp [alookup, aupdate, hp, hp', h]
      · simp [alookup, aupdate, hp, hp', ih]

theorem aupdate_fst_of_mem {α β : Type} [DecidableEq α] {d : List (α × β)} {k : α}
    (f : β → β) (init : β) (h : k ∈ d.map Prod.fst) :
    (aupdate d k f init).map Prod.fst = d.map Prod.fst := by
  induction d with
  | nil => simp at h
  | cons p rest ih =>
    by_cases hp : p.1 = k
    · simp [aupdate, hp]
    · have : k ∈ rest.map Prod.fst := by
        rcases List.mem_map.mp h with ⟨q, hq, hfst⟩
        rcases List.mem_cons.mp hq with rfl | hq'
        · exact absurd hfst hp
        · exact List.mem_map.mpr ⟨q, hq', hfst⟩
      simp [aupdate, hp, ih this]

theorem aupdate_fst_of_not_mem {α β : Type} [DecidableEq α] {d : List (α × β)} {k : α}
    (f : β → β) (init : β) (h : k ∉ d.map Prod.fst) :
    (aupdate d k f init).map Prod.fst = d.map Prod.fst ++ [k] := by
  induction d with
  | nil => simp [aupdate]
  | cons p rest ih =>
    simp only [List.map_cons, List.mem_cons] at h
    push_neg at h
    simp [aupdate, Ne.symm h.1, ih h.2]

theorem aupdate_mem {α β : Type} [DecidableEq α] {d : List (α × β)} {k : α}
    {f : β → β} {init : β} (hnd : (d.map Prod.fst).Nodup) {e : α × β}
    (he : e ∈ aupdate d k f init) :
    (e ∈ d ∧ e.1 ≠ k) ∨ e = (k, f ((alookup d k).getD init)) := by
  induction d with
  | nil =>
    simp only [aupdate, List.mem_singleton] at he
    right
    simp [he, alookup]
  | cons p rest ih =>
    simp only [List.map_cons, List.nodup_cons] at hnd
    by_cases hp : p.1 = k
    · rw [show aupdate (p :: rest) k f init = (p.1, f p.2) :: rest from by
        simp [aupdate, hp]] at he
      rcases List.mem_cons.mp he with rfl | he'
      · right
        simp [alookup, hp]
      · left
        refine ⟨List.mem_cons_of_mem _ he', fun hek => hnd.1 ?_⟩
        rw [hp, ← hek]
        exact List.mem_map.mpr ⟨e, he', rfl⟩
    · rw [show aupdate (p :: rest) k f init = p :: aupdate rest k f init from by
        simp [aupdate, hp]] at he
      rcases List.mem_cons.mp he with rfl | he'
      · exact Or.inl ⟨List.mem_cons_self _ _, hp⟩
      · rcases ih hnd.2 he' with ⟨hmem, hne⟩ | heq
        · exact Or.inl ⟨List.mem_cons_of_mem _ hmem, hne⟩
        · right
          rw [heq]
          simp [alookup, hp]

theorem aupdate_append_not_mem {α β : Type} [DecidableEq α] {d₀ : List (α × β)}
    (d₁ : List (α × β)) {k : α} (f : β → β) (init : β)
    (h : k ∉ d₀.map Prod.fst) :
    aupdate (d₀ ++ d₁) k f init = d₀ ++ aupdate d₁ k f init := by
  induction d₀ with
  | nil => rfl
  | cons p rest ih =>
    simp only [List.map_cons, List.mem_cons] at h
    push_neg at h
    simp [aupdate, Ne.symm h.1, ih h.2]

theorem aupdate_not_mem {α β : Type} [DecidableEq α] {d : List (α × β)} {k : α}
    (f : β → β) (init : β) (h : k ∉ d.map Prod.fst) :
    aupdate d k f init = d ++ [(k, f init)] := by
  have := aupdate_append_not_mem ([] : List (α × β)) f init h
  simpa using this

theorem aerase_sublist {α β : Type} [DecidableEq α] (d : List (α × β)) (k : α) :
    (aerase d k).Sublist d := by
  induction d with
  | nil => exact List.Sublist.refl _
  | cons p rest ih =>
    by_cases hp : p.1 = k
    · simpa [aerase, hp] using ih.cons p
    · simpa [aerase, hp] using ih.cons₂ p

theorem aerase_mem {α β : Type} [DecidableEq α] (d : List (α × β)) (k : α) (e : α × β) :
    e ∈ aerase d k ↔ e ∈ d ∧ e.1 ≠ k := by
  induction d with
  | nil => simp [aerase]
  | cons p rest ih =>
    by_cases hp : p.1 = k
    · simp only [aerase, if_pos hp, ih, List.mem_cons]
      constructor
      · rintro ⟨he, hne⟩; exact ⟨Or.inr he, hne⟩
      · rintro ⟨rfl | he, hne⟩
        · exact absurd hp hne
        · exact ⟨he, hne⟩
    · simp only [aerase, if_neg hp, List.mem_cons, ih]
      constructor
      · rintro (rfl | ⟨he, hne⟩)
        · exact ⟨Or.inl rfl, hp⟩
        · exact ⟨Or.inr he, hne⟩
      · rintro ⟨rfl | he, hne⟩
        · exact Or.inl rfl
        · exact Or.inr ⟨he, hne⟩

theorem aerase_lookup_ne {α β : Type} [DecidableEq α] (d : List (α × β)) {k k' : α}
    (h : k' ≠ k) : alookup (aerase d k) k' = alookup d k' := by
  induction d with
  | nil => rfl
  | cons p rest ih =>
    by_cases hp : p.1 = k
    · simp [aerase, alookup, hp, Ne.symm h, ih]
    · by_cases hp' : p.1 = k'
      · simp [aerase, alookup, hp, hp', h]
      · simp [aerase, alookup, hp, hp', ih]

theorem aerase_lookup_self {α β : Type} [DecidableEq α] (d : List (α × β)) (k : α) :
    alookup (aerase d k) k = none := by
  induction d with
  | nil => rfl
  | cons p rest ih =>
    by_cases hp : p.1 = k <;> simp [aerase, alookup, hp, ih]

theorem eraseFirst_sublist {α : Type} [DecidableEq α] (l : List α) (a : α) :
    (eraseFirst l a).Sublist l := by
  induction l with
  | nil => exact List.Sublist.refl _
  | cons x xs ih =>
    by_cases hx : x = a
    · simp only [eraseFirst, if_pos hx]
      exact (List.Sublist.refl xs).cons x
    · simp only [eraseFirst, if_neg hx]
      exact ih.cons₂ x

theorem eraseFirst_mem_of_ne {α : Type} [DecidableEq α] {l : List α} {x a : α}
    (h : x ≠ a) : x ∈ eraseFirst l a ↔ x ∈ l := by
  induction l with
  | nil => simp [eraseFirst]
  | cons y ys ih =>
    by_cases hy : y = a
    · subst hy
      simp [eraseFirst, List.mem_cons, h]
    · simp [eraseFirst, hy, List.mem_cons, ih]

theorem eraseFirst_not_mem {α : Type} [DecidableEq α] {l : List α} {a : α}
    (hnd : l.Nodup) : a ∉ eraseFirst l a := by
  induction l with
  | nil => simp [eraseFirst]
  | cons y ys ih =>
    simp only [List.nodup_cons] at hnd
    by_cases hy : y = a
    · subst hy
      simpa [eraseFirst] using hnd.1
    · simp only [eraseFirst, if_neg hy, List.mem_cons]
      rintro (rfl | hmem)
      · exact hy rfl
      · exact ih hnd.2 hmem

/-! ## Storage layer (`datasketch/storage.py`)

`DictListStorage` keeps a `defaultdict(list)`, `DictSetStorage` a
`defaultdict(set)`.  Both are embedded over association lists whose values
are lists; `DictSetStorage` values are kept duplicate-free by the
membership-guarded insert. -/

/-- `Storage.get`: value list under `k`, empty when absent
(`self._dict.get(key, [])` / `(key, set())`). -/
def storeGet {α γ : Type} [DecidableEq α] (d : List (α × List γ)) (k : α) : List γ :=
  (alookup d k).getD []

/-- `Storage.has_key`: `key in self._dict`. -/
def storeHasKey {α γ : Type} [DecidableEq α] (d : List (α × List γ)) (k : α) : Bool :=
  (alookup d k).isSome

/-- `Storage.size`: number of keys. -/
def storeSize {α β : Type} (d : List (α × β)) : Nat :=
  d.length

/-- `Storage.itemcounts`: `{k: len(v) for k, v in self._dict.items()}`. -/
def storeItemcounts {α γ : Type} (d : List (α × List γ)) : List (α × Nat) :=
  d.map (fun p => (p.1, p.2.length))

/-- `Storage.remove`: `del self._dict[key]` (callers guard presence). -/
def storeRemove {α β : Type} [DecidableEq α] (d : List (α × β)) (k : α) : List (α × β) :=
  aerase d k

/-- `DictListStorage.insert`: `self._dict[key].append(val)` through the
`defaultdict`. -/
def listInsert {α γ : Type} [DecidableEq α] (d : List (α × List γ)) (k : α) (v : γ) :
    List (α × List γ) :=
  aupdate d k (fun l => l ++ [v]) []

/-- `DictListStorage.remove_val`: `self._dict[key].remove(val)`.  The
`defaultdict` access first creates an empty entry when `key` is absent, after
which `list.remove` raises `ValueError`; when the key is present but the
value is not, `list.remove` raises and the dict is left as it was. -/
def listRemoveVal {α γ : Type} [DecidableEq α] [DecidableEq γ] (d : List (α × List γ))
    (k : α) (v : γ) : List (α × List γ) × Option Err :=
  match alookup d k with
  | none => (d ++ [(k, [])], some Err.valueError)
  | some l =>
    if v ∈ l then (aupdate d k (fun l => eraseFirst l v) [], none)
    else (d, some Err.valueError)

/-- `DictSetStorage.insert`: `self._dict[key].add(val)` (idempotent per
value). -/
def setInsert {α γ : Type} [DecidableEq α] [DecidableEq γ] (d : List (α × List γ))
    (k : α) (v : γ) : List (α × List γ) :=
  aupdate d k (fun s => if v ∈ s then s else s ++ [v]) []

/-- `DictSetStorage` inherits `remove_val` from `DictListStorage`;
`set.remove` raises `KeyError` when the member is absent. -/
def setRemoveVal {α γ : Type} [DecidableEq α] [DecidableEq γ] (d : List (α × List γ))
    (k : α) (v : γ) : List (α × List γ) × Option Err :=
  match alookup d k with
  | none => (d ++ [(k, [])], some Err.keyError)
  | some s =>
    if v ∈ s then (aupdate d k (fun s => eraseFirst s v) [], none)
    else (d, some Err.keyError)

/-- Python set union `a | b` on the duplicate-free list model. -/
def setUnion {γ : Type} [DecidableEq γ] (a b : List γ) : List γ :=
  a ++ b.filter (fun x => decide (x ∉ a))

/-- `DictSetStorage.union_references`:
`set(reduce(lambda a, b: a | b, references))`.  `functools.reduce` with no
initial value raises `TypeError` on an empty sequence. -/
def dictSetUnionReferences {γ : Type} [DecidableEq γ] (references : List (List γ)) :
    Except Err (List γ) :=
  match references with
  | [] => Except.error Err.typeError
  | r :: rs => Except.ok (rs.foldl setUnion r)

/-- `RedisSetStorage.union_references`: returns the empty set when no
references are given, otherwise the server-side `SUNION` of the referenced
sets (a missing key denotes the empty set). -/
def redisSetUnionReferences {α γ : Type} [DecidableEq α] [DecidableEq γ]
    (store : List (α × List γ)) (references : List α) : List γ :=
  if references.isEmpty then []
  else references.foldl (fun acc k => setUnion acc (storeGet store k)) []

theorem storeGet_setInsert_self {α γ : Type} [DecidableEq α] [DecidableEq γ]
    (d : List (α × List γ)) (k : α) (v : γ) :
    storeGet (setInsert d k v) k =
      if v ∈ storeGet d k then storeGet d k else storeGet d k ++ [v] := by
  simp [storeGet, setInsert, aupdate_lookup_self]

theorem storeGet_setInsert_ne {α γ : Type} [DecidableEq α] [DecidableEq γ]
    (d : List (α × List γ)) {k k' : α} (v : γ) (h : k' ≠ k) :
    storeGet (setInsert d k v) k' = storeGet d k' := by
  simp [storeGet, setInsert, aupdate_lookup_ne _ _ _ h]

theorem mem_storeGet_setInsert_self {α γ : Type} [DecidableEq α] [DecidableEq γ]
    (d : List (α × List γ)) (k : α) (v : γ) :
    v ∈ storeGet (setInsert d k v) k := by
  rw [storeGet_setInsert_self]
  by_cases hv : v ∈ storeGet d k <;> simp [hv]

theorem mem_storeGet_setInsert_iff {α γ : Type} [DecidableEq α] [DecidableEq γ]
    (d : List (α × List γ)) (k k' : α) (v x : γ) :
    x ∈ storeGet (setInsert d k v) k' ↔
      x ∈ storeGet d k' ∨ (x = v ∧ k' = k) := by
  by_cases hk : k' = k
  · subst hk
    rw [storeGet_setInsert_self]
    by_cases hv : v ∈ storeGet d k'
    · simp only [if_pos hv]
      constructor
      · exact fun h => Or.inl h
      · rintro (h | ⟨rfl, -⟩)
        · exact h
        · exact hv
    · simp [if_neg hv, List.mem_append]
  · rw [storeGet_setInsert_ne _ _ hk]
    simp [hk]

/-! ## The banded LSH index (`datasketch/lsh.py`, class `MinHashLSH`)

Record keys are opaque hashables; they are embedded as `Nat`.  A `BandKey`
is the band's slice of the signature (see the header note on `_H`). -/

abbrev RecordKey := Nat

abbrev BandKey := List Nat

abbrev BandTable := List (BandKey × List RecordKey)

/-- The mutable state of a `MinHashLSH` instance: `self.h`, `self.r`,
`self.keys` (ordered storage: record key to its band keys in band order) and
`self.hashtables` (one unordered storage per band).  `self.b` is the number
of hashtables. -/
structure MinHashLSH where
  h : Nat
  r : Nat
  keys : List (RecordKey × List BandKey)
  hashtables : List BandTable
  deriving DecidableEq

/-- `self.b`: the band count, i.e. the number of hashtables. -/
def MinHashLSH.b (st : MinHashLSH) : Nat :=
  st.hashtables.length

/-- `self.hashranges = [(i*self.r, (i+1)*self.r) for i in range(self.b)]`. -/
def hashranges (b r : Nat) : List (Nat × Nat) :=
  (List.range b).map (fun i => (i * r, (i + 1) * r))

/-- `self._H(minhash.hashvalues[start:end])`: the canonical key of one band
slice (Python slicing clamps at the end of the list, as `drop`/`take` do). -/
def sliceH (sig : List Nat) (p : Nat × Nat) : BandKey :=
  (sig.drop p.1).take (p.2 - p.1)

/-- `Hs = [self._H(minhash.hashvalues[start:end]) for start, end in
self.hashranges]`. -/
def bandHs (st : MinHashLSH) (sig : List Nat) : List BandKey :=
  (hashranges st.b st.r).map (sliceH sig)

/-- `MinHashLSH.insert`.  Raises (state untouched) when the signature length
differs from `self.h` or the key is already present; otherwise appends the
band keys to `self.keys[key]` and adds the key to each band hashtable. -/
def MinHashLSH.insert (st : MinHashLSH) (k : RecordKey) (sig : List Nat) :
    MinHashLSH × Option Err :=
  if sig.length ≠ st.h then (st, some Err.valueError)
  else if (alookup st.keys k).isSome then (st, some Err.valueError)
  else
    let Hs := bandHs st sig
    ({ st with
        keys := Hs.foldl (fun d H => listInsert d k H) st.keys,
        hashtables := List.zipWith (fun H t => setInsert t H k) Hs st.hashtables },
      none)

/-- `candidates.add(key)` over the Python set of candidates. -/
def setAdd {γ : Type} [DecidableEq γ] (c : List γ) (x : γ) : List γ :=
  if x ∈ c then c else c ++ [x]

/-- `MinHashLSH.query`: raises when the signature length differs from
`self.h`, otherwise unions `hashtable.get(H)` over all bands. -/
def MinHashLSH.query (st : MinHashLSH) (sig : List Nat) :
    Except Err (List RecordKey) :=
  if sig.length ≠ st.h then Except.error Err.valueError
  else
    Except.ok
      ((List.zipWith (fun range t => storeGet t (sliceH sig range))
          (hashranges st.b st.r) st.hashtables).foldl
        (fun c ks => ks.foldl setAdd c) [])

/-- One iteration of the removal loop body for band hashtable `t` and band
key `H`: `hashtable.remove_val(H, key); if not hashtable.get(H):
hashtable.remove(H)` (assuming `remove_val` did not raise). -/
def removeOne (t : BandTable) (H : BandKey) (k : RecordKey) : BandTable :=
  let t1 := (setRemoveVal t H k).1
  if storeGet t1 H = [] then storeRemove t1 H else t1

/-- `for H, hashtable in zip(self.keys[key], self.hashtables): ...`: walk the
band keys and hashtables in lockstep; a raise from `set.remove` aborts the
loop, leaving later hashtables untouched. -/
def removeBands (k : RecordKey) : List BandKey → List BandTable →
    List BandTable × Option Err
  | [], ts => (ts, none)
  | _ :: _, [] => ([], none)
  | H :: Hs, t :: ts =>
    let r1 := setRemoveVal t H k
    match r1.2 with
    | some e => (r1.1 :: ts, some e)
    | none =>
      let t2 := if storeGet r1.1 H = [] then storeRemove r1.1 H else r1.1
      let rec1 := removeBands k Hs ts
      (t2 :: rec1.1, rec1.2)

/-- `MinHashLSH.remove`.  Raises (state untouched) when the key is absent;
otherwise removes the key from each band hashtable entry, prunes entries
whose value set became empty, and deletes the key from `self.keys`. -/
def MinHashLSH.remove (st : MinHashLSH) (k : RecordKey) :
    MinHashLSH × Option Err :=
  match alookup st.keys k with
  | none => (st, some Err.valueError)
  | some Hs =>
    let r1 := removeBands k Hs st.hashtables
    match r1.2 with
    | some e => ({ st with hashtables := r1.1 }, some e)
    | none => ({ st with keys := storeRemove st.keys k, hashtables := r1.1 }, none)

/-- `MinHashLSH.is_empty`: `any(t.size() == 0 for t in self.hashtables)`. -/
def MinHashLSH.is_empty (st : MinHashLSH) : Bool :=
  st.hashtables.any (fun t => storeSize t == 0)

/-- States reachable from a freshly constructed index (empty key table, `b`
empty hashtables) by any sequence of `insert` and `remove` calls, including
failed ones (a failed call returns the state it left behind). -/
inductive Reachable : MinHashLSH → Prop where
  | init (h b r : Nat) : Reachable ⟨h, r, [], List.replicate b []⟩
  | insert {st : MinHashLSH} (k : RecordKey) (sig : List Nat) :
      Reachable st → Reachable (st.insert k sig).1
  | remove {st : MinHashLSH} (k : RecordKey) :
      Reachable st → Reachable (st.remove k).1

/-! ## Helper lemmas about the query fold and list indexing -/

theorem mem_setAdd {γ : Type} [DecidableEq γ] (c : List γ) (a x : γ) :
    x ∈ setAdd c a ↔ x ∈ c ∨ x = a := by
  by_cases ha : a ∈ c
  · simp only [setAdd, if_pos ha]
    constructor
    · exact Or.inl
    · rintro (h | rfl)
      · exact h
      · exact ha
  · simp [setAdd, ha]

theorem mem_foldl_setAdd {γ : Type} [DecidableEq γ] (l c : List γ) (x : γ) :
    x ∈ l.foldl setAdd c ↔ x ∈ c ∨ x ∈ l := by
  induction l generalizing c with
  | nil => simp
  | cons a as ih =>
    rw [List.foldl_cons, ih, mem_setAdd]
    simp [List.mem_cons, or_assoc]

theorem mem_query_fold {γ : Type} [DecidableEq γ] (ls : List (List γ)) (c : List γ)
    (x : γ) :
    x ∈ ls.foldl (fun c ks => ks.foldl setAdd c) c ↔ x ∈ c ∨ ∃ l ∈ ls, x ∈ l := by
  induction ls generalizing c with
  | nil => simp
  | cons a as ih =>
    rw [List.foldl_cons, ih, mem_foldl_setAdd]
    constructor
    · rintro ((hc | hx) | ⟨l, hl, hx⟩)
      · exact Or.inl hc
      · exact Or.inr ⟨a, List.mem_cons_self _ _, hx⟩
      · exact Or.inr ⟨l, List.mem_cons_of_mem _ hl, hx⟩
    · rintro (hc | ⟨l, hl, hx⟩)
      · exact Or.inl (Or.inl hc)
      · rcases List.mem_cons.mp hl with rfl | hl'
        · exact Or.inl (Or.inr hx)
        · exact Or.inr ⟨l, hl', hx⟩

theorem mem_zipWith_iff {α β γ : Type} (f : α → β → γ) (as : List α) (bs : List β)
    (x : γ) (da : α) (db : β) :
    x ∈ List.zipWith f as bs ↔
      ∃ i, i < as.length ∧ i < bs.length ∧ x = f (as.getD i da) (bs.getD i db) := by
  induction as generalizing bs with
  | nil => simp
  | cons a as ih =>
    cases bs with
    | nil => simp
    | cons b bs =>
      simp only [List.zipWith_cons_cons, List.mem_cons, ih]
      constructor
      · rintro (rfl | ⟨i, h1, h2, rfl⟩)
        · exact ⟨0, by simp, by simp, rfl⟩
        · exact ⟨i + 1, by simpa using Nat.succ_lt_succ h1,
            by simpa using Nat.succ_lt_succ h2, by simp⟩
      · rintro ⟨i, h1, h2, rfl⟩
        cases i with
        | zero => exact Or.inl (by simp)
        | succ j =>
          exact Or.inr ⟨j, Nat.lt_of_succ_lt_succ (by simpa using h1),
            Nat.lt_of_succ_lt_succ (by simpa using h2), by simp⟩

theorem getD_map_lt {α β : Type} (f : α → β) (l : List α) (i : Nat) (da : α) (db : β)
    (h : i < l.length) : (l.map f).getD i db = f (l.getD i da) := by
  rw [List.getD_eq_getElem _ _ (by simpa using h), List.getD_eq_getElem _ _ h,
    List.getElem_map]

theorem getD_zipWith_lt {α β γ : Type} (f : α → β → γ) (as : List α) (bs : List β)
    (i : Nat) (da : α) (db : β) (dc : γ) (h1 : i < as.length) (h2 : i < bs.length) :
    (List.zipWith f as bs).getD i dc = f (as.getD i da) (bs.getD i db) := by
  rw [List.getD_eq_getElem _ _ (by simp [List.length_zipWith]; omega),
    List.getD_eq_getElem _ _ h1, List.getD_eq_getElem _ _ h2, List.getElem_zipWith]

theorem getD_replicate_lt {α : Type} (n i : Nat) (a d : α) (h : i < n) :
    (List.replicate n a).getD i d = a := by
  rw [List.getD_eq_getElem _ _ (by simpa using h), List.getElem_replicate]

theorem hashranges_length (b r : Nat) : (hashranges b r).length = b := by
  simp [hashranges]

theorem hashranges_getD (b r i : Nat) (h : i < b) :
    (hashranges b r).getD i (0, 0) = (i * r, (i + 1) * r) := by
  unfold hashranges
  rw [getD_map_lt _ _ _ 0 _ (by simpa using h),
    List.getD_eq_getElem _ _ (by simpa using h), List.getElem_range]

theorem bandHs_length (st : MinHashLSH) (sig : List Nat) :
    (bandHs st sig).length = st.b := by
  simp [bandHs, hashranges_length]

theorem bandHs_getD (st : MinHashLSH) (sig : List Nat) (i : Nat) (h : i < st.b) :
    (bandHs st sig).getD i [] = sliceH sig (i * st.r, (i + 1) * st.r) := by
  unfold bandHs
  rw [getD_map_lt _ _ _ (0, 0) _ (by simpa [hashranges_length] using h),
    hashranges_getD _ _ _ h]

/-- Characterization of `query` on a well-sized signature: it succeeds and
returns exactly the union over the bands of the hashtable buckets under the
query's band keys. -/
theorem query_mem (st : MinHashLSH) (sig : List Nat) (hlen : sig.length = st.h) :
    ∃ res, st.query sig = Except.ok res ∧
      ∀ x, x ∈ res ↔ ∃ i, i < st.b ∧
        x ∈ storeGet (st.hashtables.getD i []) (sliceH sig (i * st.r, (i + 1) * st.r)) := by
  refine ⟨_, by rw [MinHashLSH.query, if_neg (by omega)], fun x => ?_⟩
  rw [mem_query_fold]
  simp only [List.not_mem_nil, false_or]
  constructor
  · rintro ⟨l, hl, hx⟩
    rcases (mem_zipWith_iff _ _ _ _ (0, 0) []).mp hl with ⟨i, h1, h2, rfl⟩
    refine ⟨i, by simpa [hashranges_length] using h1, ?_⟩
    rwa [hashranges_getD _ _ _ (by simpa [hashranges_length] using h1)] at hx
  · rintro ⟨i, hi, hx⟩
    refine ⟨storeGet (st.hashtables.getD i []) (sliceH sig (i * st.r, (i + 1) * st.r)),
      ?_, hx⟩
    refine (mem_zipWith_iff _ _ _ _ (0, 0) []).mpr ⟨i, by simpa [hashranges_length], hi, ?_⟩
    rw [hashranges_getD _ _ _ hi]

/-! ## Insert characterization -/

theorem insert_ok (st : MinHashLSH) (k : RecordKey) (sig : List Nat)
    (h1 : sig.length = st.h) (h2 : alookup st.keys k = none) :
    st.insert k sig =
      ({ st with
          keys := (bandHs st sig).foldl (fun d H => listInsert d k H) st.keys,
          hashtables :=
            List.zipWith (fun H t => setInsert t H k) (bandHs st sig) st.hashtables },
        none) := by
  rw [MinHashLSH.insert, if_neg (by omega), if_neg (by simp [h2])]

/-- The concrete scenario state of §8: `H = 4`, `(b, r) = (2, 2)`, empty. -/
def lshScenarioStart : MinHashLSH := ⟨4, 2, [], [[], []]⟩

/-- The scenario state after inserting key `100` (the spec's `"x"`) with
signature `[1, 2, 3, 4]`. -/
def lshScenarioIndexed : MinHashLSH := (lshScenarioStart.insert 100 [1, 2, 3, 4]).1

/-- Claim C2: for every query signature of length `H`, `query` returns
exactly the union over all `b` bands of the record-key sets stored under the
query's per-band band keys (empty for an absent band key); in the concrete
scenario with `H = 4`, `(b, r) = (2, 2)` and key `100` inserted with
signature `[1,2,3,4]`, querying `[1,2,9,9]` returns `100` and querying
`[9,9,9,9]` returns nothing. -/
theorem lsh_query_union (st : MinHashLSH) (sig : List Nat) (hlen : sig.length = st.h) :
    (∃ res, st.query sig = Except.ok res ∧
      ∀ x, x ∈ res ↔ ∃ i, i < st.b ∧
        x ∈ storeGet (st.hashtables.getD i [])
          (sliceH sig (i * st.r, (i + 1) * st.r))) ∧
    (lshScenarioStart.insert 100 [1, 2, 3, 4]).2 = none ∧
    lshScenarioIndexed.query [1, 2, 9, 9] = Except.ok [100] ∧
    lshScenarioIndexed.query [9, 9, 9, 9] = Except.ok [] :=
  ⟨query_mem st sig hlen, rfl, rfl, rfl⟩

/-- Witness for C2: the general union characterization applied to the
scenario state and the query signature `[1, 2, 9, 9]`. -/
theorem lsh_query_union_witness :
    (∃ res, lshScenarioIndexed.query [1, 2, 9, 9] = Except.ok res ∧
      ∀ x, x ∈ res ↔ ∃ i, i < lshScenarioIndexed.b ∧
        x ∈ storeGet (lshScenarioIndexed.hashtables.getD i [])
          (sliceH [1, 2, 9, 9] (i * lshScenarioIndexed.r, (i + 1) * lshScenarioIndexed.r))) ∧
    (lshScenarioStart.insert 100 [1, 2, 3, 4]).2 = none ∧
    lshScenarioIndexed.query [1, 2, 9, 9] = Except.ok [100] ∧
    lshScenarioIndexed.query [9, 9, 9, 9] = Except.ok [] :=
  lsh_query_union lshScenarioIndexed [1, 2, 9, 9] rfl

/-- Claim C4: `insert` fails exactly when the signature length differs from
`self.h` or the key is already present, and a failing call leaves the state
exactly as it was (both validations precede every mutation in the source). -/
theorem lsh_insert_error_iff (st : MinHashLSH) (k : RecordKey) (sig : List Nat) :
    ((st.insert k sig).2.isSome = true ↔
      (sig.length ≠ st.h ∨ (alookup st.keys k).isSome = true)) ∧
    ((st.insert k sig).2.isSome = true → (st.insert k sig).1 = st) := by
  unfold MinHashLSH.insert
  split_ifs with h1 h2
  · simp [h1]
  · simp [h1, h2]
  · simp [h1, h2]

/-- Claim C6 counterexample: with an explicit zero-band configuration
(`params = (0, r)` passes the constructor's validation), a valid `insert`
call succeeds without recording anything, and querying the exact inserted
signature does not return the key. -/
theorem lsh_query_self_cex :
    Reachable (⟨2, 1, [], []⟩ : MinHashLSH) ∧
    MinHashLSH.insert ⟨2, 1, [], []⟩ 7 [1, 2] = (⟨2, 1, [], []⟩, none) ∧
    MinHashLSH.query ⟨2, 1, [], []⟩ [1, 2] = Except.ok [] ∧
    (7 : RecordKey) ∉ ([] : List RecordKey) := by
  refine ⟨?_, rfl, rfl, by simp⟩
  exact Reachable.init 2 0 1

/-- Claim C6 (amended with at least one band): after a successful
`insert (k, sig)` on an index with `b ≥ 1`, querying the same signature
returns `k` among the candidates — band keys are computed identically from
the signature at insert and query time. -/
theorem lsh_query_self (st : MinHashLSH) (k : RecordKey) (sig : List Nat)
    (st2 : MinHashLSH) (hb : 1 ≤ st.b) (hins : st.insert k sig = (st2, none)) :
    ∃ res, st2.query sig = Except.ok res ∧ k ∈ res := by
  by_cases h1 : sig.length = st.h
  · by_cases h2 : alookup st.keys k = none
    · rw [insert_ok st k sig h1 h2] at hins
      have hst2 : st2 = { st with
          keys := (bandHs st sig).foldl (fun d H => listInsert d k H) st.keys,
          hashtables :=
            List.zipWith (fun H t => setInsert t H k) (bandHs st sig) st.hashtables } :=
        (congrArg Prod.fst hins).symm
      subst hst2
      obtain ⟨res, hq, hiff⟩ := query_mem { st with
          keys := (bandHs st sig).foldl (fun d H => listInsert d k H) st.keys,
          hashtables :=
            List.zipWith (fun H t => setInsert t H k) (bandHs st sig) st.hashtables }
        sig h1
      refine ⟨res, hq, (hiff k).mpr ⟨0, ?_, ?_⟩⟩
      · have hlen2 : (List.zipWith (fun H t => setInsert t H k) (bandHs st sig)
            st.hashtables).length = st.b := by
          simp [List.length_zipWith, bandHs_length, MinHashLSH.b]
        simpa [MinHashLSH.b, hlen2] using hb
      · have hz : (List.zipWith (fun H t => setInsert t H k) (bandHs st sig)
            st.hashtables).getD 0 [] =
            setInsert (st.hashtables.getD 0 []) ((bandHs st sig).getD 0 []) k :=
          getD_zipWith_lt _ _ _ 0 [] [] []
            (by simpa [bandHs_length] using hb) (by simpa [MinHashLSH.b] using hb)
        show k ∈ storeGet ((List.zipWith (fun H t => setInsert t H k) (bandHs st sig)
            st.hashtables).getD 0 []) (sliceH sig (0 * st.r, (0 + 1) * st.r))
        rw [hz, bandHs_getD st sig 0 hb]
        exact mem_storeGet_setInsert_self (st.hashtables.getD 0 [])
          (sliceH sig (0 * st.r, (0 + 1) * st.r)) k
    · rw [MinHashLSH.insert, if_neg (by omega),
        if_pos (Option.isSome_iff_ne_none.mpr h2)] at hins
      simp at hins
  · rw [MinHashLSH.insert, if_pos (by omega)] at hins
    simp at hins

/-- Witness for C6: the inserted key `100` is returned when the scenario
index is queried with its own signature. -/
theorem lsh_query_self_witness :
    ∃ res, lshScenarioIndexed.query [1, 2, 3, 4] = Except.ok res ∧ 100 ∈ res :=
  lsh_query_self lshScenarioStart 100 [1, 2, 3, 4] lshScenarioIndexed (by decide) rfl

/-! ## Constructor validation (`MinHashLSH.__init__`) -/

/-- `MinHashLSH.__init__`: the four validations of lines 88-95, then (when
`params` is given) the `b*r > num_perm` check of lines 97-100.  Every call
that passes validation then executes line 105, which references the name
`defaultdict` that `lsh.py` never imports (line 107 likewise references the
undefined name `storage_config`), so construction ends in a `NameError`
instead of producing an index. -/
def lshInit (threshold : ℚ) (num_perm : Nat) (weights : ℚ × ℚ)
    (params : Option (Nat × Nat)) : Except Err Unit :=
  if threshold > 1 ∨ threshold < 0 then Except.error Err.valueError
  else if num_perm < 2 then Except.error Err.valueError
  else if weights.1 < 0 ∨ weights.1 > 1 ∨ weights.2 < 0 ∨ weights.2 > 1 then
    Except.error Err.valueError
  else if weights.1 + weights.2 ≠ 1 then Except.error Err.valueError
  else
    match params with
    | some p =>
      if p.1 * p.2 > num_perm then Except.error Err.valueError
      else Except.error Err.nameError
    | none => Except.error Err.nameError

/-- Claim C7: the constructor raises a validation error exactly under the
claimed conditions, but for every input passing validation it raises
`NameError` (lines 105-107 reference undefined names) instead of yielding a
usable index — shown at the concrete valid input `threshold = 1/2`,
`num_perm = 16`, `weights = (1/2, 1/2)`. -/
theorem lsh_init_validation :
    (∀ (threshold : ℚ) (num_perm : Nat) (weights : ℚ × ℚ)
        (params : Option (Nat × Nat)),
      lshInit threshold num_perm weights params = Except.error Err.valueError ↔
        ((threshold > 1 ∨ threshold < 0) ∨ num_perm < 2 ∨
          (weights.1 < 0 ∨ weights.1 > 1 ∨ weights.2 < 0 ∨ weights.2 > 1) ∨
          weights.1 + weights.2 ≠ 1 ∨
          ∃ p, params = some p ∧ p.1 * p.2 > num_perm)) ∧
    lshInit (1/2) 16 (1/2, 1/2) none = Except.error Err.nameError := by
  constructor
  · intro t n w ps
    rcases ps with _ | p
    · unfold lshInit
      split_ifs with h1 h2 h3 h4
      · simp [h1]
      · simp [h1, h2]
      · simp [h1, h2, h3]
      · simp [h1, h2, h3, h4]
      · simp [h1, h2, h3, h4]
    · simp only [lshInit]
      split_ifs with h1 h2 h3 h4 h5
      · simp [h1]
      · simp [h1, h2]
      · simp [h1, h2, h3]
      · simp [h1, h2, h3, h4]
      · simp [h1, h2, h3, h4, h5]
      · simp [h1, h2, h3, h4, h5]
  · simp only [lshInit]
    norm_num

/-- Claim C8 counterexample: the in-process unordered backend
(`DictSetStorage.union_references`) applies `functools.reduce` with no
initial value, which raises `TypeError` on zero references rather than
returning the empty set. -/
theorem union_references_zero_cex :
    dictSetUnionReferences ([] : List (List Nat)) = Except.error Err.typeError :=
  rfl

/-- Claim C8 (amended): the Redis-backed unordered storage returns the empty
set for zero references without an error, while the in-process dict-backed
unordered storage raises `TypeError` on zero references. -/
theorem union_references_zero :
    (∀ store : List (BandKey × List Nat),
      redisSetUnionReferences store ([] : List BandKey) = []) ∧
    dictSetUnionReferences ([] : List (List Nat)) = Except.error Err.typeError :=
  ⟨fun _ => rfl, rfl⟩

/-- Claim C10: `DictListStorage.remove_val` on an absent key raises, but the
`defaultdict` access has already created a fresh empty entry for the key —
afterwards `has_key` is true, `get` returns the empty list and `size` has
grown by one. -/
theorem dict_list_remove_val_absent (d : List (Nat × List Nat)) (k v : Nat)
    (h : alookup d k = none) :
    (listRemoveVal d k v).2 = some Err.valueError ∧
    storeHasKey (listRemoveVal d k v).1 k = true ∧
    storeGet (listRemoveVal d k v).1 k = [] ∧
    storeSize (listRemoveVal d k v).1 = storeSize d + 1 := by
  unfold listRemoveVal
  rw [h]
  refine ⟨rfl, ?_, ?_, by simp [storeSize]⟩
  · simp [storeHasKey, alookup_append_right _ h, alookup]
  · simp [storeGet, alookup_append_right _ h, alookup]

/-- Witness for C10 at the concrete store `{1: [2]}` and absent key `5`. -/
theorem dict_list_remove_val_absent_witness :
    (listRemoveVal [(1, [2])] 5 9).2 = some Err.valueError ∧
    storeHasKey (listRemoveVal [(1, [2])] 5 9).1 5 = true ∧
    storeGet (listRemoveVal [(1, [2])] 5 9).1 5 = [] ∧
    storeSize (listRemoveVal [(1, [2])] 5 9).1 = storeSize [(1, [2])] + 1 :=
  dict_list_remove_val_absent [(1, [2])] 5 9 (by decide)

/-! ## Index invariants

`WF` collects the invariants of §3 of the spec that hold for every state
reachable by `insert`/`remove` from a fresh index: unique dict keys,
duplicate-free non-empty bucket sets, every present record key registered in
all `b` band hashtables under its recorded band keys, and every bucket
member pointing back to a present record key. -/

theorem foldl_listInsert_acc {α γ : Type} [DecidableEq α] (d0 : List (α × List γ))
    (k : α) (l : List γ) (Hs : List γ) (h : k ∉ d0.map Prod.fst) :
    Hs.foldl (fun d H => listInsert d k H) (d0 ++ [(k, l)]) = d0 ++ [(k, l ++ Hs)] := by
  induction Hs generalizing l with
  | nil => simp
  | cons H Hs ih =>
    rw [List.foldl_cons]
    have h1 : listInsert (d0 ++ [(k, l)]) k H = d0 ++ [(k, l ++ [H])] := by
      unfold listInsert
      rw [aupdate_append_not_mem _ _ _ h]
      simp [aupdate]
    rw [h1, ih (l ++ [H])]
    simp

theorem foldl_listInsert_fresh {α γ : Type} [DecidableEq α] (d : List (α × List γ))
    (k : α) (H : γ) (Hs : List γ) (h : alookup d k = none) :
    (H :: Hs).foldl (fun d H => listInsert d k H) d = d ++ [(k, H :: Hs)] := by
  have hmem : k ∉ d.map Prod.fst := (alookup_eq_none d k).mp h
  rw [List.foldl_cons]
  have h1 : listInsert d k H = d ++ [(k, [H])] := by
    unfold listInsert
    rw [aupdate_not_mem _ _ hmem]
    simp
  rw [h1, foldl_listInsert_acc d k [H] Hs hmem]
  simp

/-- Invariants preserved by `insert` and `remove` (see §3 of the spec). -/
structure WF (st : MinHashLSH) : Prop where
  keysNodup : (st.keys.map Prod.fst).Nodup
  tableNodup : ∀ i, i < st.b → ((st.hashtables.getD i []).map Prod.fst).Nodup
  entryNonempty : ∀ i, i < st.b → ∀ e ∈ st.hashtables.getD i [], e.2 ≠ []
  entryNodup : ∀ i, i < st.b → ∀ e ∈ st.hashtables.getD i [], e.2.Nodup
  fwdLen : ∀ p ∈ st.keys, p.2.length = st.b
  fwdMem : ∀ p ∈ st.keys, ∀ i, i < st.b →
    p.1 ∈ storeGet (st.hashtables.getD i []) (p.2.getD i [])
  bwd : ∀ i, i < st.b → ∀ e ∈ st.hashtables.getD i [], ∀ x ∈ e.2,
    ∃ Hs, alookup st.keys x = some Hs ∧ Hs.getD i [] = e.1

theorem WF_init (h b r : Nat) : WF ⟨h, r, [], List.replicate b []⟩ := by
  have htab : ∀ i, i < (⟨h, r, [], List.replicate b []⟩ : MinHashLSH).b →
      ((⟨h, r, [], List.replicate b []⟩ : MinHashLSH).hashtables.getD i []) = [] := by
    intro i hi
    simp only [MinHashLSH.b, List.length_replicate] at hi
    exact getD_replicate_lt b i [] [] hi
  refine ⟨by simp, ?_, ?_, ?_, by simp, by simp, ?_⟩
  · intro i hi; rw [htab i hi]; simp
  · intro i hi; rw [htab i hi]; simp
  · intro i hi; rw [htab i hi]; simp
  · intro i hi; rw [htab i hi]; simp

theorem setRemoveVal_ok (t : BandTable) (H : BandKey) (k : RecordKey)
    (hk : k ∈ storeGet t H) : (setRemoveVal t H k).2 = none := by
  unfold setRemoveVal
  rcases hl : alookup t H with _ | s
  · rw [storeGet, hl] at hk
    simp at hk
  · rw [storeGet, hl] at hk
    simp only [Option.getD_some] at hk
    simp [hk]

theorem removeOne_spec (t : BandTable) (H : BandKey) (k : RecordKey)
    (hnd : (t.map Prod.fst).Nodup)
    (hne : ∀ e ∈ t, e.2 ≠ [])
    (hvnd : ∀ e ∈ t, e.2.Nodup)
    (hk : k ∈ storeGet t H)
    (hbwd0 : ∀ e ∈ t, k ∈ e.2 → e.1 = H) :
    ((removeOne t H k).map Prod.fst).Nodup ∧
    (∀ e ∈ removeOne t H k, e.2 ≠ []) ∧
    (∀ e ∈ removeOne t H k, e.2.Nodup) ∧
    (∀ e ∈ removeOne t H k, k ∉ e.2) ∧
    (∀ x, x ≠ k → ∀ K, (x ∈ storeGet (removeOne t H k) K ↔ x ∈ storeGet t K)) ∧
    (∀ e ∈ removeOne t H k, ∃ e2 ∈ t, e.1 = e2.1 ∧ ∀ x ∈ e.2, x ∈ e2.2) := by
  obtain ⟨s, hs⟩ : ∃ s, alookup t H = some s := by
    rcases hl : alookup t H with _ | s
    · rw [storeGet, hl] at hk
      simp at hk
    · exact ⟨s, rfl⟩
  have hks : k ∈ s := by
    rw [storeGet, hs] at hk
    simpa using hk
  have hHs_mem : (H, s) ∈ t := alookup_mem hs
  have hsnodup : s.Nodup := hvnd _ hHs_mem
  have hHfst : H ∈ t.map Prod.fst := List.mem_map.mpr ⟨(H, s), hHs_mem, rfl⟩
  have hsrv : (setRemoveVal t H k).1 = aupdate t H (fun s => eraseFirst s k) [] := by
    simp [setRemoveVal, hs, hks]
  have ht1fst : ((aupdate t H (fun s => eraseFirst s k) []).map Prod.fst) =
      t.map Prod.fst := aupdate_fst_of_mem _ _ hHfst
  have hlk1 : alookup (aupdate t H (fun s => eraseFirst s k) []) H =
      some (eraseFirst s k) := by
    rw [aupdate_lookup_self, hs]
    simp
  have hget1 : storeGet (aupdate t H (fun s => eraseFirst s k) []) H =
      eraseFirst s k := by
    rw [storeGet, hlk1]
    simp
  have ht1mem : ∀ e ∈ aupdate t H (fun s => eraseFirst s k) [],
      (e ∈ t ∧ e.1 ≠ H) ∨ e = (H, eraseFirst s k) := by
    intro e he
    rcases aupdate_mem hnd he with h1 | h1
    · exact Or.inl h1
    · right
      rw [h1, hs]
      simp
  have hro : removeOne t H k =
      if storeGet (aupdate t H (fun s => eraseFirst s k) []) H = []
      then storeRemove (aupdate t H (fun s => eraseFirst s k) []) H
      else aupdate t H (fun s => eraseFirst s k) [] := by
    unfold removeOne
    rw [hsrv]
  by_cases hemp : eraseFirst s k = []
  · -- the bucket became empty: the entry is pruned
    have hro2 : removeOne t H k =
        aerase (aupdate t H (fun s => eraseFirst s k) []) H := by
      rw [hro, if_pos (by rw [hget1]; exact hemp)]
      rfl
    have hmem2 : ∀ e ∈ removeOne t H k, e ∈ t ∧ e.1 ≠ H := by
      intro e he
      rw [hro2] at he
      obtain ⟨he1, hne1⟩ := (aerase_mem _ _ _).mp he
      rcases ht1mem e he1 with h1 | h1
      · exact h1
      · exact absurd (by rw [h1]) hne1
    have hsub : ∀ x, x ∈ eraseFirst s k → x ∈ s :=
      fun x hx => (eraseFirst_sublist s k).subset hx
    refine ⟨?_, ?_, ?_, ?_, ?_, ?_⟩
    · rw [hro2]
      exact ((aerase_sublist _ _).map Prod.fst).nodup (by rw [ht1fst]; exact hnd)
    · exact fun e he => hne e (hmem2 e he).1
    · exact fun e he => hvnd e (hmem2 e he).1
    · intro e he hke
      exact (hmem2 e he).2 (hbwd0 e (hmem2 e he).1 hke)
    · intro x hx K
      by_cases hK : K = H
      · subst hK
        rw [hro2, storeGet, aerase_lookup_self]
        simp only [Option.getD_none, List.not_mem_nil, false_iff]
        intro hxs
        rw [storeGet, hs] at hxs
        simp only [Option.getD_some] at hxs
        have : x ∈ eraseFirst s k := (eraseFirst_mem_of_ne hx).mpr hxs
        rw [hemp] at this
        simp at this
      · rw [hro2, storeGet, aerase_lookup_ne _ hK, aupdate_lookup_ne _ _ _ hK,
          storeGet]
    · intro e he
      exact ⟨e, (hmem2 e he).1, rfl, fun x hx => hx⟩
  · -- the bucket stays non-empty
    have hro2 : removeOne t H k = aupdate t H (fun s => eraseFirst s k) [] := by
      rw [hro, if_neg (by rw [hget1]; exact hemp)]
    refine ⟨?_, ?_, ?_, ?_, ?_, ?_⟩
    · rw [hro2, ht1fst]
      exact hnd
    · intro e he
      rw [hro2] at he
      rcases ht1mem e he with h1 | h1
      · exact hne e h1.1
      · rw [h1]
        exact hemp
    · intro e he
      rw [hro2] at he
      rcases ht1mem e he with h1 | h1
      · exact hvnd e h1.1
      · rw [h1]
        exact hsnodup.sublist (eraseFirst_sublist s k)
    · intro e he hke
      rw [hro2] at he
      rcases ht1mem e he with h1 | h1
      · exact h1.2 (hbwd0 e h1.1 hke)
      · rw [h1] at hke
        exact eraseFirst_not_mem hsnodup hke
    · intro x hx K
      by_cases hK : K = H
      · subst hK
        rw [hro2, hget1, eraseFirst_mem_of_ne hx, storeGet, hs]
        simp
      · rw [hro2, storeGet, aupdate_lookup_ne _ _ _ hK, storeGet]
    · intro e he
      rw [hro2] at he
      rcases ht1mem e he with h1 | h1
      · exact ⟨e, h1.1, rfl, fun x hx => hx⟩
      · refine ⟨(H, s), hHs_mem, by rw [h1], fun x hx => ?_⟩
        rw [h1] at hx
        exact (eraseFirst_sublist s k).subset hx

theorem removeBands_cons_ok (t : BandTable) (H : BandKey) (k : RecordKey)
    (Hs : List BandKey) (ts : List BandTable)
    (h : (setRemoveVal t H k).2 = none) :
    removeBands k (H :: Hs) (t :: ts) =
      (removeOne t H k :: (removeBands k Hs ts).1, (removeBands k Hs ts).2) := by
  simp only [removeBands, removeOne, h]

theorem removeBands_spec (k : RecordKey) (Hs : List BandKey) (ts : List BandTable)
    (hstep : ∀ i, i < Hs.length → i < ts.length →
      (setRemoveVal (ts.getD i []) (Hs.getD i []) k).2 = none) :
    (removeBands k Hs ts).2 = none ∧
    (removeBands k Hs ts).1.length = ts.length ∧
    (∀ i, i < Hs.length → i < ts.length →
      (removeBands k Hs ts).1.getD i [] = removeOne (ts.getD i []) (Hs.getD i []) k) ∧
    (∀ i, Hs.length ≤ i → (removeBands k Hs ts).1.getD i [] = ts.getD i []) := by
  induction Hs generalizing ts with
  | nil =>
    refine ⟨rfl, rfl, ?_, fun i hi => rfl⟩
    intro i hi
    simp at hi
  | cons H Hs ih =>
    cases ts with
    | nil =>
      refine ⟨rfl, rfl, ?_, fun i hi => rfl⟩
      intro i hi1 hi2
      simp at hi2
    | cons t ts2 =>
      have h0 := hstep 0 (by simp) (by simp)
      rw [removeBands_cons_ok t H k Hs ts2 h0]
      obtain ⟨ih1, ih2, ih3, ih4⟩ := ih ts2
        (fun i hi1 hi2 => hstep (i + 1) (by simpa using hi1) (by simpa using hi2))
      refine ⟨ih1, by simpa using ih2, ?_, ?_⟩
      · intro i hi1 hi2
        cases i with
        | zero => rfl
        | succ j => exact ih3 j (by simpa using hi1) (by simpa using hi2)
      · intro i hi
        cases i with
        | zero => simp at hi
        | succ j => exact ih4 j (by simpa using hi)

theorem remove_absent (st : MinHashLSH) (k : RecordKey)
    (h : alookup st.keys k = none) : st.remove k = (st, some Err.valueError) := by
  simp [MinHashLSH.remove, h]

theorem remove_present (st : MinHashLSH) (k : RecordKey) (Hs : List BandKey)
    (h : alookup st.keys k = some Hs)
    (hok : (removeBands k Hs st.hashtables).2 = none) :
    st.remove k =
      ({ st with
          keys := storeRemove st.keys k,
          hashtables := (removeBands k Hs st.hashtables).1 },
        none) := by
  simp [MinHashLSH.remove, h, hok]

theorem WF_mk_insert (st : MinHashLSH) (k : RecordKey) (sig : List Nat)
    (hwf : WF st) (h2 : alookup st.keys k = none) :
    WF ⟨st.h, st.r,
        (bandHs st sig).foldl (fun d H => listInsert d k H) st.keys,
        List.zipWith (fun H t => setInsert t H k) (bandHs st sig) st.hashtables⟩ := by
  have hk' : k ∉ st.keys.map Prod.fst := (alookup_eq_none _ _).mp h2
  have hlenHs : (bandHs st sig).length = st.b := bandHs_length st sig
  have hb2 : (List.zipWith (fun H t => setInsert t H k) (bandHs st sig)
      st.hashtables).length = st.b := by
    simp [List.length_zipWith, hlenHs, MinHashLSH.b]
  have htab : ∀ i, i < st.b →
      (List.zipWith (fun H t => setInsert t H k) (bandHs st sig)
        st.hashtables).getD i [] =
      setInsert (st.hashtables.getD i []) ((bandHs st sig).getD i []) k := by
    intro i hi
    exact getD_zipWith_lt _ _ _ i [] [] [] (by rw [hlenHs]; exact hi) hi
  have hkeys2 : (bandHs st sig).foldl (fun d H => listInsert d k H) st.keys =
      if bandHs st sig = [] then st.keys
      else st.keys ++ [(k, bandHs st sig)] := by
    rcases hBs : bandHs st sig with _ | ⟨H, Hs⟩
    · simp
    · rw [if_neg (by simp)]
      exact foldl_listInsert_fresh st.keys k H Hs h2
  have hlkk : ∀ x, x ≠ k →
      alookup ((bandHs st sig).foldl (fun d H => listInsert d k H) st.keys) x =
        alookup st.keys x := by
    intro x hx
    rw [hkeys2]
    split_ifs
    · rfl
    · rcases hl : alookup st.keys x with _ | v
      · rw [alookup_append_right _ hl]
        simp [alookup, Ne.symm hx]
      · exact alookup_append_left _ hl
  constructor
  case keysNodup =>
    show (((bandHs st sig).foldl (fun d H => listInsert d k H) st.keys).map
      Prod.fst).Nodup
    rw [hkeys2]
    split_ifs
    · exact hwf.keysNodup
    · rw [List.map_append]
      refine List.Nodup.append hwf.keysNodup (by simp) ?_
      intro a ha hb
      simp only [List.map_cons, List.map_nil, List.mem_singleton] at hb
      subst hb
      exact hk' ha
  case tableNodup =>
    intro i hi
    have hi' : i < st.b := lt_of_lt_of_eq hi hb2
    show (((List.zipWith (fun H t => setInsert t H k) (bandHs st sig)
      st.hashtables).getD i []).map Prod.fst).Nodup
    rw [htab i hi']
    unfold setInsert
    by_cases hH : (bandHs st sig).getD i [] ∈
        (st.hashtables.getD i []).map Prod.fst
    · rw [aupdate_fst_of_mem _ _ hH]
      exact hwf.tableNodup i hi'
    · rw [aupdate_fst_of_not_mem _ _ hH]
      refine List.Nodup.append (hwf.tableNodup i hi') (by simp) ?_
      intro a ha hb
      simp only [List.mem_singleton] at hb
      subst hb
      exact hH ha
  case entryNonempty =>
    intro i hi e he
    have hi' : i < st.b := lt_of_lt_of_eq hi hb2
    rw [show (⟨st.h, st.r, (bandHs st sig).foldl (fun d H => listInsert d k H) st.keys,
        List.zipWith (fun H t => setInsert t H k) (bandHs st sig) st.hashtables⟩ :
        MinHashLSH).hashtables =
      List.zipWith (fun H t => setInsert t H k) (bandHs st sig) st.hashtables from rfl,
      htab i hi'] at he
    rcases aupdate_mem (hwf.tableNodup i hi') he with ⟨het, -⟩ | heq
    · exact hwf.entryNonempty i hi' e het
    · rw [heq]
      dsimp only
      split_ifs with hk2
      · intro h0
        rw [h0] at hk2
        simp at hk2
      · simp
  case entryNodup =>
    intro i hi e he
    have hi' : i < st.b := lt_of_lt_of_eq hi hb2
    rw [show (⟨st.h, st.r, (bandHs st sig).foldl (fun d H => listInsert d k H) st.keys,
        List.zipWith (fun H t => setInsert t H k) (bandHs st sig) st.hashtables⟩ :
        MinHashLSH).hashtables =
      List.zipWith (fun H t => setInsert t H k) (bandHs st sig) st.hashtables from rfl,
      htab i hi'] at he
    rcases aupdate_mem (hwf.tableNodup i hi') he with ⟨het, -⟩ | heq
    · exact hwf.entryNodup i hi' e het
    · rw [heq]
      dsimp only
      rcases hl : alookup (st.hashtables.getD i []) ((bandHs st sig).getD i [])
        with _ | s0
      · simp
      · have hs0 : s0.Nodup := hwf.entryNodup i hi' _ (alookup_mem hl)
        simp only [Option.getD_some]
        split_ifs with hk2
        · exact hs0
        · exact hs0.append (by simp)
            (by intro a ha hb; simp at hb; subst hb; exact hk2 ha)
  case fwdLen =>
    intro p hp
    show p.2.length = (List.zipWith (fun H t => setInsert t H k) (bandHs st sig)
      st.hashtables).length
    rw [hb2]
    rw [show (⟨st.h, st.r, (bandHs st sig).foldl (fun d H => listInsert d k H) st.keys,
        List.zipWith (fun H t => setInsert t H k) (bandHs st sig) st.hashtables⟩ :
        MinHashLSH).keys =
      (bandHs st sig).foldl (fun d H => listInsert d k H) st.keys from rfl,
      hkeys2] at hp
    split_ifs at hp with hBs
    · exact hwf.fwdLen p hp
    · rcases List.mem_append.mp hp with hp1 | hp1
      · exact hwf.fwdLen p hp1
      · simp only [List.mem_singleton] at hp1
        rw [hp1]
        exact hlenHs
  case fwdMem =>
    intro p hp i hi
    have hi' : i < st.b := lt_of_lt_of_eq hi hb2
    rw [show (⟨st.h, st.r, (bandHs st sig).foldl (fun d H => listInsert d k H) st.keys,
        List.zipWith (fun H t => setInsert t H k) (bandHs st sig) st.hashtables⟩ :
        MinHashLSH).keys =
      (bandHs st sig).foldl (fun d H => listInsert d k H) st.keys from rfl,
      hkeys2] at hp
    show p.1 ∈ storeGet ((List.zipWith (fun H t => setInsert t H k) (bandHs st sig)
      st.hashtables).getD i []) (p.2.getD i [])
    rw [htab i hi']
    split_ifs at hp with hBs
    · exact (mem_storeGet_setInsert_iff _ _ _ _ _).mpr
        (Or.inl (hwf.fwdMem p hp i hi'))
    · rcases List.mem_append.mp hp with hp1 | hp1
      · exact (mem_storeGet_setInsert_iff _ _ _ _ _).mpr
          (Or.inl (hwf.fwdMem p hp1 i hi'))
      · simp only [List.mem_singleton] at hp1
        rw [hp1]
        exact mem_storeGet_setInsert_self _ _ _
  case bwd =>
    intro i hi e he x hx
    have hi' : i < st.b := lt_of_lt_of_eq hi hb2
    rw [show (⟨st.h, st.r, (bandHs st sig).foldl (fun d H => listInsert d k H) st.keys,
        List.zipWith (fun H t => setInsert t H k) (bandHs st sig) st.hashtables⟩ :
        MinHashLSH).hashtables =
      List.zipWith (fun H t => setInsert t H k) (bandHs st sig) st.hashtables from rfl,
      htab i hi'] at he
    have hBne : bandHs st sig ≠ [] := by
      intro h0
      rw [h0] at hlenHs
      simp at hlenHs
      omega
    rcases aupdate_mem (hwf.tableNodup i hi') he with ⟨het, -⟩ | heq
    · obtain ⟨Hsx, hlkx, hgd⟩ := hwf.bwd i hi' e het x hx
      have hxk : x ≠ k := by
        intro h0
        rw [h0, h2] at hlkx
        exact Option.noConfusion hlkx
      exact ⟨Hsx, by rw [hlkk x hxk]; exact hlkx, hgd⟩
    · rw [heq] at hx ⊢
      dsimp only at hx ⊢
      have hx2 : x ∈ (alookup (st.hashtables.getD i [])
          ((bandHs st sig).getD i [])).getD [] ∨ x = k := by
        split_ifs at hx with hk2
        · exact Or.inl hx
        · rcases List.mem_append.mp hx with h3 | h3
          · exact Or.inl h3
          · simp only [List.mem_singleton] at h3
            exact Or.inr h3
      rcases hx2 with hxs | rfl
      · rcases hl : alookup (st.hashtables.getD i []) ((bandHs st sig).getD i [])
          with _ | s0
        · rw [hl] at hxs
          simp at hxs
        · rw [hl] at hxs
          simp only [Option.getD_some] at hxs
          obtain ⟨Hsx, hlkx, hgd⟩ :=
            hwf.bwd i hi' _ (alookup_mem hl) x hxs
          have hxk : x ≠ k := by
            intro h0
            rw [h0, h2] at hlkx
            exact Option.noConfusion hlkx
          exact ⟨Hsx, by rw [hlkk x hxk]; exact hlkx, hgd⟩
      · refine ⟨bandHs st sig, ?_, rfl⟩
        rw [hkeys2, if_neg hBne, alookup_append_right _ h2]
        simp [alookup]

theorem WF_insert (st : MinHashLSH) (k : RecordKey) (sig : List Nat)
    (hwf : WF st) : WF (st.insert k sig).1 := by
  by_cases h1 : sig.length = st.h
  · by_cases h2 : alookup st.keys k = none
    · rw [insert_ok st k sig h1 h2]
      exact WF_mk_insert st k sig hwf h2
    · rw [MinHashLSH.insert, if_neg (by omega),
        if_pos (Option.isSome_iff_ne_none.mpr h2)]
      exact hwf
  · rw [MinHashLSH.insert, if_pos (by omega)]
    exact hwf

theorem WF_mk_remove (st : MinHashLSH) (k : RecordKey) (Hs : List BandKey)
    (hwf : WF st) (hlk : alookup st.keys k = some Hs) :
    WF ⟨st.h, st.r, storeRemove st.keys k, (removeBands k Hs st.hashtables).1⟩ := by
  have hkmem : (k, Hs) ∈ st.keys := alookup_mem hlk
  have hlenHs : Hs.length = st.b := hwf.fwdLen _ hkmem
  have hbwd0 : ∀ i, i < st.b → ∀ e ∈ st.hashtables.getD i [], k ∈ e.2 →
      e.1 = Hs.getD i [] := by
    intro i hi e he hke
    obtain ⟨Hsx, hlkx, hgd⟩ := hwf.bwd i hi e he k hke
    rw [hlk] at hlkx
    obtain rfl := Option.some.inj hlkx
    exact hgd.symm
  have hkin : ∀ i, i < st.b → k ∈ storeGet (st.hashtables.getD i [])
      (Hs.getD i []) := fun i hi => hwf.fwdMem _ hkmem i hi
  have hstep : ∀ i, i < Hs.length → i < st.hashtables.length →
      (setRemoveVal (st.hashtables.getD i []) (Hs.getD i []) k).2 = none := by
    intro i hi1 hi2
    exact setRemoveVal_ok _ _ _ (hkin i (by rw [← hlenHs]; exact hi1))
  obtain ⟨hrb1, hrb2, hrb3, hrb4⟩ := removeBands_spec k Hs st.hashtables hstep
  have hone := fun i (hi : i < st.b) =>
    removeOne_spec (st.hashtables.getD i []) (Hs.getD i []) k
      (hwf.tableNodup i hi) (hwf.entryNonempty i hi) (hwf.entryNodup i hi)
      (hkin i hi) (fun e he hke => hbwd0 i hi e he hke)
  have htab2 : ∀ i, i < st.b →
      (removeBands k Hs st.hashtables).1.getD i [] =
      removeOne (st.hashtables.getD i []) (Hs.getD i []) k := by
    intro i hi
    exact hrb3 i (by rw [hlenHs]; exact hi) hi
  constructor
  case keysNodup =>
    exact hwf.keysNodup.sublist ((aerase_sublist st.keys k).map Prod.fst)
  case tableNodup =>
    intro i hi
    have hi' : i < st.b := lt_of_lt_of_eq hi hrb2
    show (((removeBands k Hs st.hashtables).1.getD i []).map Prod.fst).Nodup
    rw [htab2 i hi']
    exact (hone i hi').1
  case entryNonempty =>
    intro i hi e he
    have hi' : i < st.b := lt_of_lt_of_eq hi hrb2
    rw [show (⟨st.h, st.r, storeRemove st.keys k,
        (removeBands k Hs st.hashtables).1⟩ : MinHashLSH).hashtables =
      (removeBands k Hs st.hashtables).1 from rfl, htab2 i hi'] at he
    exact (hone i hi').2.1 e he
  case entryNodup =>
    intro i hi e he
    have hi' : i < st.b := lt_of_lt_of_eq hi hrb2
    rw [show (⟨st.h, st.r, storeRemove st.keys k,
        (removeBands k Hs st.hashtables).1⟩ : MinHashLSH).hashtables =
      (removeBands k Hs st.hashtables).1 from rfl, htab2 i hi'] at he
    exact (hone i hi').2.2.1 e he
  case fwdLen =>
    intro p hp
    rw [show (⟨st.h, st.r, storeRemove st.keys k,
        (removeBands k Hs st.hashtables).1⟩ : MinHashLSH).keys =
      aerase st.keys k from rfl] at hp
    show p.2.length = (removeBands k Hs st.hashtables).1.length
    rw [hrb2]
    exact hwf.fwdLen p ((aerase_mem _ _ _).mp hp).1
  case fwdMem =>
    intro p hp i hi
    have hi' : i < st.b := lt_of_lt_of_eq hi hrb2
    rw [show (⟨st.h, st.r, storeRemove st.keys k,
        (removeBands k Hs st.hashtables).1⟩ : MinHashLSH).keys =
      aerase st.keys k from rfl] at hp
    obtain ⟨hpmem, hpne⟩ := (aerase_mem _ _ _).mp hp
    show p.1 ∈ storeGet ((removeBands k Hs st.hashtables).1.getD i []) (p.2.getD i [])
    rw [htab2 i hi']
    exact ((hone i hi').2.2.2.2.1 p.1 hpne (p.2.getD i [])).mpr
      (hwf.fwdMem p hpmem i hi')
  case bwd =>
    intro i hi e he x hx
    have hi' : i < st.b := lt_of_lt_of_eq hi hrb2
    rw [show (⟨st.h, st.r, storeRemove st.keys k,
        (removeBands k Hs st.hashtables).1⟩ : MinHashLSH).hashtables =
      (removeBands k Hs st.hashtables).1 from rfl, htab2 i hi'] at he
    obtain ⟨e2, he2, hfst, hsub⟩ := (hone i hi').2.2.2.2.2 e he
    have hxk : x ≠ k := by
      intro h0
      subst h0
      exact (hone i hi').2.2.2.1 e he hx
    obtain ⟨Hsx, hlkx, hgd⟩ := hwf.bwd i hi' e2 he2 x (hsub x hx)
    refine ⟨Hsx, ?_, by rw [hgd, hfst]⟩
    show alookup (aerase st.keys k) x = some Hsx
    rw [aerase_lookup_ne _ hxk]
    exact hlkx

theorem WF_remove (st : MinHashLSH) (k : RecordKey) (hwf : WF st) :
    WF (st.remove k).1 := by
  rcases hlk : alookup st.keys k with _ | Hs
  · rw [remove_absent st k hlk]
    exact hwf
  · have hkmem : (k, Hs) ∈ st.keys := alookup_mem hlk
    have hlenHs : Hs.length = st.b := hwf.fwdLen _ hkmem
    have hstep : ∀ i, i < Hs.length → i < st.hashtables.length →
        (setRemoveVal (st.hashtables.getD i []) (Hs.getD i []) k).2 = none := by
      intro i hi1 hi2
      exact setRemoveVal_ok _ _ _
        (hwf.fwdMem _ hkmem i (by rw [← hlenHs]; exact hi1))
    rw [remove_present st k Hs hlk (removeBands_spec k Hs st.hashtables hstep).1]
    exact WF_mk_remove st k Hs hwf hlk

theorem reachable_WF (st : MinHashLSH) (hst : Reachable st) : WF st := by
  induction hst with
  | init h b r => exact WF_init h b r
  | insert k sig hst ih => exact WF_insert _ k sig ih
  | remove k hst ih => exact WF_remove _ k ih

theorem mem_iff_getD {α : Type} (l : List α) (d x : α) :
    x ∈ l ↔ ∃ i, i < l.length ∧ l.getD i d = x := by
  induction l with
  | nil => simp
  | cons a as ih =>
    simp only [List.mem_cons, ih, List.length_cons]
    constructor
    · rintro (rfl | ⟨i, hi, rfl⟩)
      · exact ⟨0, by omega, rfl⟩
      · exact ⟨i + 1, by omega, rfl⟩
    · rintro ⟨i, hi, rfl⟩
      cases i with
      | zero => exact Or.inl rfl
      | succ j => exact Or.inr ⟨j, by omega, rfl⟩

/-- Claim C1 counterexample: with the zero-band configuration (an explicit
`params = (0, r)` passes the constructor's `b*r > num_perm` validation),
`is_empty` returns false although every band hashtable — there are none —
vacuously has size 0: `any` over an empty sequence of hashtables is false. -/
theorem lsh_is_empty_cex :
    Reachable (⟨2, 1, [], []⟩ : MinHashLSH) ∧
    MinHashLSH.is_empty ⟨2, 1, [], []⟩ = false ∧
    ∀ t ∈ (⟨2, 1, [], []⟩ : MinHashLSH).hashtables, storeSize t = 0 := by
  refine ⟨Reachable.init 2 0 1, rfl, by simp⟩

/-- Claim C1 (amended with at least one band): for every reachable state of
an index with `b ≥ 1`, `is_empty()` — implemented as `any(t.size() == 0)` —
is true iff every band hashtable has size 0; the key table is deliberately
not consulted.  Over reachable states the bands are uniformly empty or
uniformly non-empty, which makes the code's `any` agree with the claimed
`every`. -/
theorem lsh_is_empty_iff (st : MinHashLSH) (hst : Reachable st) (hb : 1 ≤ st.b) :
    (st.is_empty = true ↔ ∀ t ∈ st.hashtables, storeSize t = 0) := by
  have hwf := reachable_WF st hst
  have hTablesIdx : ∀ t ∈ st.hashtables, ∃ i, i < st.b ∧ st.hashtables.getD i [] = t :=
    fun t ht => (mem_iff_getD st.hashtables [] t).mp ht
  have hmem0 : st.hashtables.getD 0 [] ∈ st.hashtables :=
    (mem_iff_getD st.hashtables [] _).mpr ⟨0, hb, rfl⟩
  rcases hkeys : st.keys with _ | ⟨p, rest⟩
  · have hall : ∀ i, i < st.b → st.hashtables.getD i [] = [] := by
      intro i hi
      rcases hte : st.hashtables.getD i [] with _ | ⟨e, es⟩
      · rfl
      · exfalso
        have he : e ∈ st.hashtables.getD i [] := by
          rw [hte]
          exact List.mem_cons_self _ _
        have hne := hwf.entryNonempty i hi e he
        rcases he2 : e.2 with _ | ⟨x, xs⟩
        · exact hne he2
        · have hx : x ∈ e.2 := by
            rw [he2]
            exact List.mem_cons_self _ _
          obtain ⟨Hsx, hlkx, -⟩ := hwf.bwd i hi e he x hx
          rw [hkeys] at hlkx
          simp [alookup] at hlkx
    constructor
    · intro h0 t ht
      obtain ⟨i, hi, rfl⟩ := hTablesIdx t ht
      rw [hall i hi]
      rfl
    · intro h0
      rw [MinHashLSH.is_empty, List.any_eq_true]
      refine ⟨st.hashtables.getD 0 [], hmem0, ?_⟩
      rw [hall 0 (by omega)]
      rfl
  · have hp : p ∈ st.keys := by
      rw [hkeys]
      exact List.mem_cons_self _ _
    have hnon : ∀ i, i < st.b → st.hashtables.getD i [] ≠ [] := by
      intro i hi h0
      have hm := hwf.fwdMem p hp i hi
      rw [h0] at hm
      simp [storeGet, alookup] at hm
    constructor
    · intro h0
      exfalso
      rw [MinHashLSH.is_empty, List.any_eq_true] at h0
      obtain ⟨t, ht, hsz⟩ := h0
      obtain ⟨i, hi, rfl⟩ := hTablesIdx t ht
      exact hnon i hi (List.length_eq_zero.mp (by simpa [storeSize] using hsz))
    · intro h0
      exfalso
      have hsz := h0 _ hmem0
      exact hnon 0 (by omega) (List.length_eq_zero.mp (by simpa [storeSize] using hsz))

/-- Witness for C1 (amended): the fresh two-band scenario index. -/
theorem lsh_is_empty_iff_witness :
    (MinHashLSH.is_empty lshScenarioStart = true ↔
      ∀ t ∈ lshScenarioStart.hashtables, storeSize t = 0) :=
  lsh_is_empty_iff lshScenarioStart (Reachable.init 4 2 2) (by decide)

theorem removeBands_core (st : MinHashLSH) (k : RecordKey) (Hs : List BandKey)
    (hwf : WF st) (hlk : alookup st.keys k = some Hs) :
    (removeBands k Hs st.hashtables).2 = none ∧
    (removeBands k Hs st.hashtables).1.length = st.hashtables.length ∧
    (∀ i, i < st.b → ∀ e ∈ (removeBands k Hs st.hashtables).1.getD i [],
      k ∉ e.2) := by
  have hkmem : (k, Hs) ∈ st.keys := alookup_mem hlk
  have hlenHs : Hs.length = st.b := hwf.fwdLen _ hkmem
  have hbwd0 : ∀ i, i < st.b → ∀ e ∈ st.hashtables.getD i [], k ∈ e.2 →
      e.1 = Hs.getD i [] := by
    intro i hi e he hke
    obtain ⟨Hsx, hlkx, hgd⟩ := hwf.bwd i hi e he k hke
    rw [hlk] at hlkx
    obtain rfl := Option.some.inj hlkx
    exact hgd.symm
  have hkin : ∀ i, i < st.b → k ∈ storeGet (st.hashtables.getD i [])
      (Hs.getD i []) := fun i hi => hwf.fwdMem _ hkmem i hi
  have hstep : ∀ i, i < Hs.length → i < st.hashtables.length →
      (setRemoveVal (st.hashtables.getD i []) (Hs.getD i []) k).2 = none := by
    intro i hi1 hi2
    exact setRemoveVal_ok _ _ _ (hkin i (by rw [← hlenHs]; exact hi1))
  obtain ⟨hrb1, hrb2, hrb3, hrb4⟩ := removeBands_spec k Hs st.hashtables hstep
  refine ⟨hrb1, hrb2, ?_⟩
  intro i hi e he
  rw [hrb3 i (by rw [hlenHs]; exact hi) hi] at he
  exact (removeOne_spec (st.hashtables.getD i []) (Hs.getD i []) k
    (hwf.tableNodup i hi) (hwf.entryNonempty i hi) (hwf.entryNodup i hi)
    (hkin i hi) (fun e he hke => hbwd0 i hi e he hke)).2.2.2.1 e he

/-- Claim C5: `remove` fails exactly when the key is absent; a successful
removal removes the key from every band hashtable entry, prunes entries
whose value set became empty, and deletes the key from the key table; and in
every reachable state every band-key entry present in a hashtable has a
non-empty value set, so no emptied entry appears in `itemcounts()`. -/
theorem lsh_remove_correct (st : MinHashLSH) (k : RecordKey) (hst : Reachable st) :
    ((st.remove k).2 = none ↔ (alookup st.keys k).isSome = true) ∧
    (∀ t ∈ st.hashtables, ∀ e ∈ t, e.2 ≠ []) ∧
    (∀ t ∈ st.hashtables, ∀ c ∈ storeItemcounts t, c.2 ≠ 0) ∧
    ((st.remove k).2 = none →
      alookup ((st.remove k).1).keys k = none ∧
      (∀ t ∈ ((st.remove k).1).hashtables, ∀ e ∈ t, k ∉ e.2) ∧
      (∀ t ∈ ((st.remove k).1).hashtables, ∀ e ∈ t, e.2 ≠ [])) := by
  have hwf := reachable_WF st hst
  have hwf2 := reachable_WF _ (Reachable.remove k hst)
  have hNE : ∀ (s2 : MinHashLSH), WF s2 → ∀ t ∈ s2.hashtables, ∀ e ∈ t,
      e.2 ≠ [] := by
    intro s2 hw t ht e he
    obtain ⟨i, hi, hti⟩ := (mem_iff_getD s2.hashtables [] t).mp ht
    rw [← hti] at he
    exact hw.entryNonempty i hi e he
  refine ⟨?_, hNE st hwf, ?_, ?_⟩
  · rcases hlk : alookup st.keys k with _ | Hs
    · rw [remove_absent st k hlk]
      simp
    · rw [remove_present st k Hs hlk (removeBands_core st k Hs hwf hlk).1]
      simp
  · intro t ht c hc
    obtain ⟨i, hi, hti⟩ := (mem_iff_getD st.hashtables [] t).mp ht
    obtain ⟨e, he, rfl⟩ := List.mem_map.mp hc
    rw [← hti] at he
    intro h0
    exact hwf.entryNonempty i hi e he (List.length_eq_zero.mp (by simpa using h0))
  · intro hok2
    refine ⟨?_, ?_, hNE _ hwf2⟩
    · rcases hlk : alookup st.keys k with _ | Hs
      · rw [remove_absent st k hlk] at hok2
        simp at hok2
      · rw [remove_present st k Hs hlk (removeBands_core st k Hs hwf hlk).1]
        exact aerase_lookup_self st.keys k
    · rcases hlk : alookup st.keys k with _ | Hs
      · rw [remove_absent st k hlk] at hok2
        simp at hok2
      · obtain ⟨hc1, hc2, hc3⟩ := removeBands_core st k Hs hwf hlk
        rw [remove_present st k Hs hlk hc1]
        intro t ht e he
        obtain ⟨i, hi, hti⟩ :=
          (mem_iff_getD (removeBands k Hs st.hashtables).1 [] t).mp ht
        rw [← hti] at he
        exact hc3 i (lt_of_lt_of_eq hi hc2) e he

/-- Witness for C5 at the scenario index holding key `100`. -/
theorem lsh_remove_correct_witness :
    ((lshScenarioIndexed.remove 100).2 = none ↔
      (alookup lshScenarioIndexed.keys 100).isSome = true) ∧
    (∀ t ∈ lshScenarioIndexed.hashtables, ∀ e ∈ t, e.2 ≠ []) ∧
    (∀ t ∈ lshScenarioIndexed.hashtables, ∀ c ∈ storeItemcounts t, c.2 ≠ 0) ∧
    ((lshScenarioIndexed.remove 100).2 = none →
      alookup ((lshScenarioIndexed.remove 100).1).keys 100 = none ∧
      (∀ t ∈ ((lshScenarioIndexed.remove 100).1).hashtables, ∀ e ∈ t, 100 ∉ e.2) ∧
      (∀ t ∈ ((lshScenarioIndexed.remove 100).1).hashtables, ∀ e ∈ t, e.2 ≠ [])) :=
  lsh_remove_correct lshScenarioIndexed 100
    (Reachable.insert 100 [1, 2, 3, 4] (Reachable.init 4 2 2))

/-! ## Inverted index buffered insertion (`datasketch/inverted_index.py`)

`InvertedIndex` keeps two unordered storages, `keys : key → set value` and
`index : value → set key`; `_insert(key, value, buffer)` inserts into both.
The `buffer=True` insert path and `empty_buffer` are storage capabilities
invoked by `inverted_index.py` but absent from `storage.py` in this tree, so
the queue behaviour is modelled from the spec (§4.1): while a session is
active inserts are queued rather than applied; `__exit__` (which Python runs
on normal and abnormal exit alike) flushes every queued insert exactly
once. -/

structure InvertedIndex where
  keys : List (Nat × List Nat)
  index : List (Nat × List Nat)
  keysBuffer : List (Nat × Nat)
  indexBuffer : List (Nat × Nat)
  deriving DecidableEq

/-- Modelled from the spec: `_insert(key, value, buffer=True)` queues
`(key, value)` in the `keys` storage buffer and `(value, key)` in the
`index` storage buffer instead of applying them (the `buffer` keyword and
the queue are missing from `storage.py`). -/
def InvertedIndex.insertBuffered (st : InvertedIndex) (k v : Nat) :
    InvertedIndex :=
  { st with
      keysBuffer := st.keysBuffer ++ [(k, v)],
      indexBuffer := st.indexBuffer ++ [(v, k)] }

/-- Modelled from the spec: `empty_buffer` applies every queued insert to
the underlying unordered storage in queue order. -/
def emptyBuffer (d : List (Nat × List Nat)) (buf : List (Nat × Nat)) :
    List (Nat × List Nat) :=
  buf.foldl (fun d p => setInsert d p.1 p.2) d

/-- `InvertedIndexInsertionSession.__exit__`: flush the buffers of both
storages; Python runs `__exit__` on normal and abnormal session exit
alike. -/
def InvertedIndex.sessionExit (st : InvertedIndex) : InvertedIndex :=
  ⟨emptyBuffer st.keys st.keysBuffer, emptyBuffer st.index st.indexBuffer, [], []⟩

/-- Queue a list of `(key, value)` pairs through
`InvertedIndexInsertionSession.insert` in order. -/
def InvertedIndex.sessionInsertAll (st : InvertedIndex) (ps : List (Nat × Nat)) :
    InvertedIndex :=
  ps.foldl (fun s p => s.insertBuffered p.1 p.2) st

/-- A whole insertion session: queue the pairs, then exit. -/
def InvertedIndex.sessionRun (st : InvertedIndex) (ps : List (Nat × Nat)) :
    InvertedIndex :=
  (st.sessionInsertAll ps).sessionExit

theorem mem_storeGet_emptyBuffer (d : List (Nat × List Nat))
    (buf : List (Nat × Nat)) (k v : Nat) (h : v ∈ storeGet d k) :
    v ∈ storeGet (emptyBuffer d buf) k := by
  induction buf generalizing d with
  | nil => exact h
  | cons p ps ih =>
    exact ih _ ((mem_storeGet_setInsert_iff _ _ _ _ _).mpr (Or.inl h))

theorem mem_storeGet_emptyBuffer_of_mem (d : List (Nat × List Nat))
    (buf : List (Nat × Nat)) (p : Nat × Nat) (hp : p ∈ buf) :
    p.2 ∈ storeGet (emptyBuffer d buf) p.1 := by
  induction buf generalizing d with
  | nil => simp at hp
  | cons q qs ih =>
    rcases List.mem_cons.mp hp with rfl | hp'
    · show p.2 ∈ storeGet (emptyBuffer (setInsert d p.1 p.2) qs) p.1
      exact mem_storeGet_emptyBuffer _ _ _ _ (mem_storeGet_setInsert_self _ _ _)
    · exact ih _ hp'

theorem sessionInsertAll_main (st : InvertedIndex) (ps : List (Nat × Nat)) :
    (st.sessionInsertAll ps).keys = st.keys ∧
    (st.sessionInsertAll ps).index = st.index ∧
    (st.sessionInsertAll ps).keysBuffer = st.keysBuffer ++ ps ∧
    (st.sessionInsertAll ps).indexBuffer =
      st.indexBuffer ++ ps.map (fun p => (p.2, p.1)) := by
  induction ps generalizing st with
  | nil => simp [InvertedIndex.sessionInsertAll]
  | cons p ps ih =>
    have hstep : st.sessionInsertAll (p :: ps) =
        (st.insertBuffered p.1 p.2).sessionInsertAll ps := rfl
    rw [hstep]
    obtain ⟨h1, h2, h3, h4⟩ := ih (st.insertBuffered p.1 p.2)
    refine ⟨by rw [h1]; rfl, by rw [h2]; rfl, ?_, ?_⟩
    · rw [h3]
      show st.keysBuffer ++ [(p.1, p.2)] ++ ps = st.keysBuffer ++ p :: ps
      simp
    · rw [h4]
      show st.indexBuffer ++ [(p.2, p.1)] ++ ps.map (fun p => (p.2, p.1)) =
        st.indexBuffer ++ (p :: ps).map (fun p => (p.2, p.1))
      simp

/-- Claim C9: inserts inside a buffered insertion session are queued, not
applied — the main maps are unchanged while the session is open — and on
session exit (normal or abnormal, since `__exit__` runs in both cases) every
queued insert is flushed exactly once: afterwards every queued `(key, value)`
pair is visible in both directions and the buffers are empty. -/
theorem inverted_index_session (st : InvertedIndex) (ps : List (Nat × Nat)) :
    ((st.sessionInsertAll ps).keys = st.keys ∧
      (st.sessionInsertAll ps).index = st.index) ∧
    (∀ p ∈ ps, p.2 ∈ storeGet (st.sessionRun ps).keys p.1 ∧
      p.1 ∈ storeGet (st.sessionRun ps).index p.2) ∧
    (st.sessionRun ps).keysBuffer = [] ∧
    (st.sessionRun ps).indexBuffer = [] := by
  obtain ⟨h1, h2, h3, h4⟩ := sessionInsertAll_main st ps
  refine ⟨⟨h1, h2⟩, ?_, rfl, rfl⟩
  intro p hp
  constructor
  · show p.2 ∈ storeGet (emptyBuffer (st.sessionInsertAll ps).keys
      (st.sessionInsertAll ps).keysBuffer) p.1
    rw [h3]
    exact mem_storeGet_emptyBuffer_of_mem _ _ p
      (List.mem_append.mpr (Or.inr hp))
  · show p.1 ∈ storeGet (emptyBuffer (st.sessionInsertAll ps).index
      (st.sessionInsertAll ps).indexBuffer) p.2
    rw [h4]
    exact mem_storeGet_emptyBuffer_of_mem _ _ (p.2, p.1)
      (List.mem_append.mpr (Or.inr (List.mem_map.mpr ⟨p, hp, rfl⟩)))

/-! ## Parameter optimization (`lsh.py`: `_integration`,
`_false_positive_probability`, `_false_negative_probability`,
`_optimal_param`)

The integration is the source's fallback fixed-step midpoint rule with step
`0.001` (`scipy.integrate.quad` is an environment-dependent collaborator,
used only when scipy is importable); it is embedded over exact rationals.
The argmin/tie-break property proved for the search loop below does not
depend on the integrator's values. -/

def integrationPrecision : ℚ := 1 / 1000

/-- The number of iterations of `while x < b: ... x += p` starting at
`x = a` with step `p = 0.001`. -/
def integrationSteps (a b : ℚ) : Nat :=
  (((b - a) / integrationPrecision).ceil).toNat

/-- `_integration(f, a, b)`: `area += f(x + 0.5*p) * p` for
`x = a, a+p, ...` while `x < b` (the `None` error estimate the source pairs
with the area is dropped). -/
def integration (f : ℚ → ℚ) (a b : ℚ) : ℚ :=
  (List.range (integrationSteps a b)).foldl
    (fun area k => area +
      f (a + k * integrationPrecision + integrationPrecision / 2) *
        integrationPrecision) 0

/-- `_false_positive_probability(threshold, b, r)`. -/
def false_positive_probability (threshold : ℚ) (b r : Nat) : ℚ :=
  integration (fun s => 1 - (1 - s ^ r) ^ b) 0 threshold

/-- `_false_negative_probability(threshold, b, r)`. -/
def false_negative_probability (threshold : ℚ) (b r : Nat) : ℚ :=
  integration (fun s => 1 - (1 - (1 - s ^ r) ^ b)) threshold 1

/-- The weighted error `fp*false_positive_weight + fn*false_negative_weight`
minimized by `_optimal_param`. -/
def lshError (threshold wfp wfn : ℚ) (p : Nat × Nat) : ℚ :=
  false_positive_probability threshold p.1 p.2 * wfp +
    false_negative_probability threshold p.1 p.2 * wfn

/-- The candidate grid of `_optimal_param` in enumeration order: `b` in
`range(1, num_perm+1)`, `r` in `range(1, int(num_perm/b)+1)`. -/
def paramGrid (num_perm : Nat) : List (Nat × Nat) :=
  (List.range' 1 num_perm).flatMap (fun b =>
    (List.range' 1 (num_perm / b)).map (fun r => (b, r)))

/-- One iteration of the search loop: update `(min_error, opt)` when
`error < min_error`, strictly. -/
def optStep (err : Nat × Nat → ℚ) (s : WithTop ℚ × (Nat × Nat)) (p : Nat × Nat) :
    WithTop ℚ × (Nat × Nat) :=
  if (err p : WithTop ℚ) < s.1 then ((err p : WithTop ℚ), p) else s

/-- The search loop of `_optimal_param` over an arbitrary error function,
starting from `min_error = inf` and `opt = (0, 0)`. -/
def optimalParamWith (err : Nat × Nat → ℚ) (num_perm : Nat) : Nat × Nat :=
  ((paramGrid num_perm).foldl (optStep err) (⊤, (0, 0))).2

/-- `_optimal_param(threshold, num_perm, fp_weight, fn_weight)`. -/
def optimal_param (threshold : ℚ) (num_perm : Nat) (wfp wfn : ℚ) : Nat × Nat :=
  optimalParamWith (lshError threshold wfp wfn) num_perm

/-- The minimum of the error over a candidate list (`⊤` for none). -/
def gmin (err : Nat × Nat → ℚ) (l : List (Nat × Nat)) : WithTop ℚ :=
  l.foldr (fun p m => min ((err p : WithTop ℚ)) m) ⊤

theorem gmin_le (err : Nat × Nat → ℚ) (l : List (Nat × Nat)) (p : Nat × Nat)
    (hp : p ∈ l) : gmin err l ≤ (err p : WithTop ℚ) := by
  induction l with
  | nil => simp at hp
  | cons q l ih =>
    rcases List.mem_cons.mp hp with rfl | hp'
    · exact min_le_left _ _
    · exact le_trans (min_le_right _ _) (ih hp')

theorem gmin_cons (err : Nat × Nat → ℚ) (q : Nat × Nat) (l : List (Nat × Nat)) :
    gmin err (q :: l) = min ((err q : WithTop ℚ)) (gmin err l) := rfl

theorem paramGrid_mem (n : Nat) (p : Nat × Nat) :
    p ∈ paramGrid n ↔ 1 ≤ p.1 ∧ p.1 ≤ n ∧ 1 ≤ p.2 ∧ p.2 ≤ n / p.1 := by
  rcases p with ⟨b, r⟩
  simp only [paramGrid, List.mem_flatMap, List.mem_map, List.mem_range'_1]
  constructor
  · rintro ⟨b0, hb0, r0, hr0, heq⟩
    obtain ⟨rfl, rfl⟩ : b0 = b ∧ r0 = r := by
      cases heq
      exact ⟨rfl, rfl⟩
    exact ⟨hb0.1, by omega, hr0.1, by omega⟩
  · rintro ⟨h1, h2, h3, h4⟩
    exact ⟨b, ⟨h1, by omega⟩, r, ⟨h3, by omega⟩, rfl⟩

theorem optFold_spec (err : Nat × Nat → ℚ) (l : List (Nat × Nat)) :
    ∀ (m : WithTop ℚ) (o : Nat × Nat),
    (¬ gmin err l < m → l.foldl (optStep err) (m, o) = (m, o)) ∧
    (gmin err l < m →
      (l.foldl (optStep err) (m, o)).1 = gmin err l ∧
      ∃ i, i < l.length ∧ (l.foldl (optStep err) (m, o)).2 = l.getD i (0, 0) ∧
        ((err (l.getD i (0, 0)) : WithTop ℚ)) = gmin err l ∧
        ∀ j, j < i → gmin err l < (err (l.getD j (0, 0)) : WithTop ℚ)) := by
  induction l with
  | nil =>
    intro m o
    refine ⟨fun _ => rfl, fun h => ?_⟩
    exact absurd h (not_top_lt)
  | cons p l ih =>
    intro m o
    rw [gmin_cons]
    by_cases hpm : (err p : WithTop ℚ) < m
    · have hstep : (p :: l).foldl (optStep err) (m, o) =
          l.foldl (optStep err) ((err p : WithTop ℚ), p) := by
        rw [List.foldl_cons]
        congr 1
        simp [optStep, hpm]
      constructor
      · intro hno
        exact absurd (lt_of_le_of_lt (min_le_left _ _) hpm) hno
      · intro hyes
        rw [hstep]
        by_cases hlp : gmin err l < (err p : WithTop ℚ)
        · have hmin : min ((err p : WithTop ℚ)) (gmin err l) = gmin err l :=
            min_eq_right (le_of_lt hlp)
          rw [hmin]
          obtain ⟨h1, i, hi, h2, h3, h4⟩ := (ih ((err p : WithTop ℚ)) p).2 hlp
          refine ⟨h1, i + 1, by simpa using Nat.succ_lt_succ hi, h2, h3, ?_⟩
          intro j hj
          cases j with
          | zero => exact hlp
          | succ j2 => exact h4 j2 (by omega)
        · have hple : (err p : WithTop ℚ) ≤ gmin err l := not_lt.mp hlp
          have hmin : min ((err p : WithTop ℚ)) (gmin err l) = (err p : WithTop ℚ) :=
            min_eq_left hple
          rw [hmin]
          rw [(ih ((err p : WithTop ℚ)) p).1 hlp]
          refine ⟨rfl, 0, by simp, rfl, rfl, ?_⟩
          intro j hj
          omega
    · have hmp : m ≤ (err p : WithTop ℚ) := not_lt.mp hpm
      have hstep : (p :: l).foldl (optStep err) (m, o) =
          l.foldl (optStep err) (m, o) := by
        rw [List.foldl_cons]
        congr 1
        simp [optStep, hpm]
      constructor
      · intro hno
        rw [hstep]
        refine (ih m o).1 (fun hlt => hno ?_)
        exact lt_of_le_of_lt (min_le_right _ _) hlt
      · intro hyes
        rw [hstep]
        have hlm : gmin err l < m := by
          rcases min_lt_iff.mp hyes with h | h
          · exact absurd h hpm
          · exact h
        have hmin : min ((err p : WithTop ℚ)) (gmin err l) = gmin err l :=
          min_eq_right (le_of_lt (lt_of_lt_of_le hlm hmp))
        rw [hmin]
        obtain ⟨h1, i, hi, h2, h3, h4⟩ := (ih m o).2 hlm
        refine ⟨h1, i + 1, by simpa using Nat.succ_lt_succ hi, h2, h3, ?_⟩
        intro j hj
        cases j with
        | zero => exact lt_of_lt_of_le hlm hmp
        | succ j2 => exact h4 j2 (by omega)

/-- Claim C3: for every `num_perm ≥ 2`, threshold in `[0, 1]` and valid
weight pair, `_optimal_param` returns a pair `(b, r)` with `b ≥ 1`, `r ≥ 1`
and `b*r ≤ num_perm` that minimizes `w_fp*FP + w_fn*FN` over the candidate
grid, ties broken by the first pair encountered in the `b`-ascending then
`r`-ascending enumeration order: every strictly earlier grid pair has
strictly larger error. -/
theorem optimal_param_correct (threshold : ℚ) (num_perm : Nat) (wfp wfn : ℚ)
    (hn : 2 ≤ num_perm) (ht0 : 0 ≤ threshold) (ht1 : threshold ≤ 1)
    (hw1 : 0 ≤ wfp ∧ wfp ≤ 1) (hw2 : 0 ≤ wfn ∧ wfn ≤ 1)
    (hsum : wfp + wfn = 1) :
    1 ≤ (optimal_param threshold num_perm wfp wfn).1 ∧
    1 ≤ (optimal_param threshold num_perm wfp wfn).2 ∧
    (optimal_param threshold num_perm wfp wfn).1 *
      (optimal_param threshold num_perm wfp wfn).2 ≤ num_perm ∧
    optimal_param threshold num_perm wfp wfn ∈ paramGrid num_perm ∧
    (∀ p ∈ paramGrid num_perm,
      lshError threshold wfp wfn (optimal_param threshold num_perm wfp wfn) ≤
        lshError threshold wfp wfn p) ∧
    ∃ i, i < (paramGrid num_perm).length ∧
      (paramGrid num_perm).getD i (0, 0) =
        optimal_param threshold num_perm wfp wfn ∧
      ∀ j, j < i →
        lshError threshold wfp wfn (optimal_param threshold num_perm wfp wfn) <
          lshError threshold wfp wfn ((paramGrid num_perm).getD j (0, 0)) := by
  have h11 : (1, 1) ∈ paramGrid num_perm := by
    rw [paramGrid_mem]
    refine ⟨le_refl 1, by omega, le_refl 1, ?_⟩
    rw [Nat.div_one]
    omega
  have hglt : gmin (lshError threshold wfp wfn) (paramGrid num_perm) < ⊤ :=
    lt_of_le_of_lt (gmin_le _ _ _ h11) (WithTop.coe_lt_top _)
  obtain ⟨h1, i, hi, h2, h3, h4⟩ :=
    (optFold_spec (lshError threshold wfp wfn) (paramGrid num_perm) ⊤ (0, 0)).2 hglt
  have hres : optimal_param threshold num_perm wfp wfn =
      (paramGrid num_perm).getD i (0, 0) := h2
  have hmem : optimal_param threshold num_perm wfp wfn ∈ paramGrid num_perm := by
    rw [hres]
    exact (mem_iff_getD _ _ _).mpr ⟨i, hi, rfl⟩
  obtain ⟨hb1, hbn, hr1, hrdiv⟩ := (paramGrid_mem _ _).mp hmem
  refine ⟨hb1, hr1, ?_, hmem, ?_, ?_⟩
  · have := (Nat.le_div_iff_mul_le (by omega :
        0 < (optimal_param threshold num_perm wfp wfn).1)).mp hrdiv
    calc (optimal_param threshold num_perm wfp wfn).1 *
        (optimal_param threshold num_perm wfp wfn).2
        = (optimal_param threshold num_perm wfp wfn).2 *
          (optimal_param threshold num_perm wfp wfn).1 := Nat.mul_comm _ _
      _ ≤ num_perm := this
  · intro p hp
    have hle : gmin (lshError threshold wfp wfn) (paramGrid num_perm) ≤
        ((lshError threshold wfp wfn p : ℚ) : WithTop ℚ) := gmin_le _ _ _ hp
    rw [← h3] at hle
    rw [hres]
    exact_mod_cast hle
  · refine ⟨i, hi, hres.symm, ?_⟩
    intro j hj
    have := h4 j hj
    rw [← h3] at this
    rw [hres]
    exact_mod_cast this

/-- Witness for C3 at `threshold = 1/2`, `num_perm = 2`, weights
`(1/2, 1/2)`. -/
theorem optimal_param_correct_witness :
    1 ≤ (optimal_param (1/2) 2 (1/2) (1/2)).1 ∧
    1 ≤ (optimal_param (1/2) 2 (1/2) (1/2)).2 ∧
    (optimal_param (1/2) 2 (1/2) (1/2)).1 *
      (optimal_param (1/2) 2 (1/2) (1/2)).2 ≤ 2 ∧
    optimal_param (1/2) 2 (1/2) (1/2) ∈ paramGrid 2 ∧
    (∀ p ∈ paramGrid 2,
      lshError (1/2) (1/2) (1/2) (optimal_param (1/2) 2 (1/2) (1/2)) ≤
        lshError (1/2) (1/2) (1/2) p) ∧
    ∃ i, i < (paramGrid 2).length ∧
      (paramGrid 2).getD i (0, 0) = optimal_param (1/2) 2 (1/2) (1/2) ∧
      ∀ j, j < i →
        lshError (1/2) (1/2) (1/2) (optimal_param (1/2) 2 (1/2) (1/2)) <
          lshError (1/2) (1/2) (1/2) ((paramGrid 2).getD j (0, 0)) :=
  optimal_param_correct (1/2) 2 (1/2) (1/2) (by norm_num) (by norm_num)
    (by norm_num) (by norm_num) (by norm_num) (by norm_num)
